import Mathlib

/-!
Order-list parser: shallow embedding of `parseInput`.

The development embeds the text-to-record parser of `src/src/App.jsx`
(the same code is repeated in `src/app.js`) and proves properties of it.

Modelling conventions.

* A JavaScript string is its sequence of UTF-16 code units, `List Nat`.
* Regular expressions are embedded as the matchers they denote:
  `/\r?\n/` (split), `/\s+/g` (replace), `/\b\d{3}\.\d{3}\.\d{2}\b/`
  (`INDEX_REGEX`) and `/^-?\d+(?:[\.,]\d+)?$/` (`looksLikeNumber`).
* `String.prototype.toLowerCase` is a parameter of the development (its
  Unicode tables are not part of the repository); every general theorem
  holds for any lowercasing function.
* A JavaScript Number is an IEEE-754 binary64 value, `JS.Number`;
  `parseFloat` rounds the decimal literal to the nearest double, ties to
  even.
* The `Map` of records is the list of its values in insertion order.
* `String.prototype.localeCompare` is a parameter of the sorted view, and
  `Array.prototype.sort`, which is stable, is an insertion sort.
* The copy of the parser in `src/app.js` is embedded on its own, in the
  namespace `AppJs`, and proved equal to the copy of `src/src/App.jsx`.
-/

namespace JS

/-- A string is the sequence of its UTF-16 code units. -/
abbrev JSString := List Nat

/-- UTF-16 code units of one Unicode scalar value. -/
def utf16Char (c : Char) : List Nat :=
  if c.toNat < 65536 then [c.toNat]
  else [55296 + (c.toNat - 65536) / 1024, 56320 + (c.toNat - 65536) % 1024]

/-- UTF-16 code units of a string literal. -/
def utf16 (s : String) : JSString :=
  s.toList.flatMap utf16Char

/-- The class `\s` of a regular expression, which is also the set of code
units removed by `trim`: WhiteSpace and LineTerminator. -/
def isWhiteSpace (c : Nat) : Bool :=
  c == 9 || c == 10 || c == 11 || c == 12 || c == 13 || c == 32 || c == 160 ||
  c == 5760 || (8192 ≤ c && c ≤ 8202) || c == 8232 || c == 8233 || c == 8239 ||
  c == 8287 || c == 12288 || c == 65279

/-- The class `\d`. -/
def isDigit (c : Nat) : Bool :=
  48 ≤ c && c ≤ 57

/-- The class `\w`, which decides the assertion `\b`. -/
def isWordChar (c : Nat) : Bool :=
  (48 ≤ c && c ≤ 57) || (65 ≤ c && c ≤ 90) || (97 ≤ c && c ≤ 122) || c == 95

/-- Whether a neighbouring position holds a word character (no character:
no). -/
def isWordAt : Option Nat → Bool
  | none => false
  | some c => isWordChar c

/-- The assertion `\b` between the code unit before and the one after. -/
def wordBoundary (before after : Option Nat) : Bool :=
  isWordAt before != isWordAt after

/-- Splitting `text.split(/\r?\n/)`: the separators are `\r\n` and `\n`; a
text with `n` separators gives `n + 1` pieces. -/
def splitLines : JSString → List JSString
  | [] => [[]]
  | c :: rest =>
    if c = 10 then [] :: splitLines rest
    else
      match rest with
      | [] => [[c]]
      | d :: rest2 =>
        if c = 13 ∧ d = 10 then [] :: splitLines rest2
        else
          match splitLines (d :: rest2) with
          | [] => [[c]]
          | piece :: pieces => (c :: piece) :: pieces

/-- Replacement `line.replace(/\s+/g, " ")`: every maximal run of
white space becomes one space. The flag tells that the previous code unit
was white space. -/
def collapseAux : Bool → JSString → JSString
  | _, [] => []
  | inRun, c :: rest =>
    if isWhiteSpace c then
      if inRun then collapseAux true rest else 32 :: collapseAux true rest
    else c :: collapseAux false rest

/-- Replacement `line.replace(/\s+/g, " ")`. -/
def collapseWhiteSpace (line : JSString) : JSString :=
  collapseAux false line

/-- Removal of the leading white space. -/
def trimStart (s : JSString) : JSString :=
  s.dropWhile isWhiteSpace

/-- Removal of the trailing white space. -/
def trimEnd (s : JSString) : JSString :=
  (s.reverse.dropWhile isWhiteSpace).reverse

/-- The method `trim`. -/
def trim (s : JSString) : JSString :=
  trimStart (trimEnd s)

/-- The method `includes`: `w` occurs in `s` as a contiguous substring. -/
def includes : JSString → JSString → Bool
  | [], w => w.isEmpty
  | c :: rest, w => w.isPrefixOf (c :: rest) || includes rest w

/-- Replacement `s.replace(",", ".")`: the first comma only. -/
def replaceFirstComma : JSString → JSString
  | [] => []
  | c :: rest => if c = 44 then 46 :: rest else c :: replaceFirstComma rest

/-- An IEEE-754 binary64 value. `finite neg m eb` is
`(-1)^neg * m * 2^(eb - 1074)` with `m < 2^53`, and `2^52 ≤ m` unless
`eb = 0`. -/
inductive Number where
  | finite (neg : Bool) (m : Nat) (eb : Nat)
  | infinite (neg : Bool)
  | nan
  deriving DecidableEq, Repr

/-- The test `Number.isFinite`. -/
def Number.isFinite : Number → Bool
  | .finite _ _ _ => true
  | _ => false

/-- The test `Number.isInteger`: finite with no fractional part. -/
def Number.isInteger : Number → Bool
  | .finite _ m eb => 1074 ≤ eb || m % 2 ^ (1074 - eb) == 0
  | _ => false

/-- The integer a Number stands for, when it is one. -/
def Number.toInt? : Number → Option Int
  | .finite neg m eb =>
    if 1074 ≤ eb then some ((if neg then -1 else 1) * (m * 2 ^ (eb - 1074) : Nat))
    else if m % 2 ^ (1074 - eb) = 0 then
      some ((if neg then -1 else 1) * (m / 2 ^ (1074 - eb) : Nat))
    else none
  | _ => none

/-- Number of binary digits of `n`, for `n < 2 ^ fuel`. -/
def bitLength : Nat → Nat → Nat
  | 0, _ => 0
  | fuel + 1, n => if n = 0 then 0 else bitLength fuel (n / 2) + 1

/-- The quotient `num * 2^1074 / (den * 2^eb)` as a pair numerator,
denominator. -/
def scaled (num den eb : Nat) : Nat × Nat :=
  if eb ≤ 1074 then (num * 2 ^ (1074 - eb), den) else (num, den * 2 ^ (eb - 1074))

/-- The double nearest to `(-1)^neg * num / den` (ties to even), for
`0 < den`, where `fuel` bounds the binary lengths of `num` and `den`. -/
def roundToDouble (fuel : Nat) (neg : Bool) (num den : Nat) : Number :=
  if num = 0 then .finite neg 0 0
  else
    let eb0 := bitLength fuel num + 1021 - bitLength fuel den
    let s0 := scaled num den eb0
    let eb := if 2 ^ 53 ≤ s0.1 / s0.2 then eb0 + 1 else eb0
    let s := scaled num den eb
    let q := s.1 / s.2
    let r := s.1 % s.2
    let m := if s.2 < 2 * r ∨ (2 * r = s.2 ∧ q % 2 = 1) then q + 1 else q
    let m2 := if m = 2 ^ 53 then 2 ^ 52 else m
    let eb2 := if m = 2 ^ 53 then eb + 1 else eb
    if 2045 < eb2 then .infinite neg else .finite neg m2 eb2

/-- The value of a run of decimal digits. -/
def digitsValue (ds : JSString) : Nat :=
  ds.foldl (fun acc d => acc * 10 + (d - 48)) 0

/-- The function `parseFloat` on the literals the parser gives it: an
optional sign, decimal digits, and an optional `.` followed by decimal
digits. The longest such prefix is read; when there is no digit the result
is `NaN`. (Exponents, `Infinity` and leading white space cannot occur behind
the guard `looksLikeNumber`.) -/
def parseFloat (s : JSString) : Number :=
  let neg := s.head? == some 45
  let body := if s.head? == some 45 ∨ s.head? == some 43 then s.tail else s
  let intDigits := body.takeWhile isDigit
  let afterInt := body.dropWhile isDigit
  let fracDigits :=
    match afterInt with
    | 46 :: rest => rest.takeWhile isDigit
    | _ => []
  if intDigits = [] ∧ fracDigits = [] then .nan
  else
    roundToDouble (4 * (intDigits.length + fracDigits.length) + 4) neg
      (digitsValue (intDigits ++ fracDigits)) (10 ^ fracDigits.length)

end JS

namespace AppJsx

open JS

/-- The constant `HEADER_BLACKLIST`. -/
def HEADER_BLACKLIST : List JSString :=
  [utf16 "numer", utf16 "cdu", utf16 "indeks", utf16 "opis", utf16 "cena",
   utf16 "ilość", utf16 "ilosc", utf16 "wartość", utf16 "wartosc",
   utf16 "razem", utf16 "suma", utf16 "produkt", utf16 "nr", utf16 "pozycja",
   utf16 "kod"]

/-- The pattern `INDEX_REGEX` tried at one position: `before` is the code
unit in front of the position, the list is the text from the position on.
The result is the matched substring. -/
def INDEX_REGEX.matchAt (before : Option Nat) : JSString → Option JSString
  | d1 :: d2 :: d3 :: p1 :: d4 :: d5 :: d6 :: p2 :: d7 :: d8 :: rest =>
    if wordBoundary before (some d1) && isDigit d1 && isDigit d2 && isDigit d3 &&
        p1 == 46 && isDigit d4 && isDigit d5 && isDigit d6 && p2 == 46 &&
        isDigit d7 && isDigit d8 && wordBoundary (some d8) rest.head? then
      some [d1, d2, d3, p1, d4, d5, d6, p2, d7, d8]
    else none
  | _ => none

/-- The leftmost match of `INDEX_REGEX` from a position on. -/
def INDEX_REGEX.execFrom : Option Nat → JSString → Option JSString
  | _, [] => none
  | before, c :: rest =>
    match INDEX_REGEX.matchAt before (c :: rest) with
    | some m => some m
    | none => INDEX_REGEX.execFrom (some c) rest

/-- The call `line.match(INDEX_REGEX)`: `match[0]` of the leftmost match. -/
def INDEX_REGEX.exec (line : JSString) : Option JSString :=
  INDEX_REGEX.execFrom none line

/-- The call `INDEX_REGEX.test(line)`. -/
def INDEX_REGEX.test (line : JSString) : Bool :=
  (INDEX_REGEX.exec line).isSome

/-- The function `normalizeLine`. -/
def normalizeLine (line : JSString) : JSString :=
  trim (collapseWhiteSpace line)

/-- The pattern `^-?\d+(?:[\.,]\d+)?$` of `looksLikeNumber`. -/
def looksLikeNumber (line : JSString) : Bool :=
  let body := if line.head? == some 45 then line.tail else line
  let intDigits := body.takeWhile isDigit
  let rest := body.dropWhile isDigit
  !intDigits.isEmpty &&
    (match rest with
     | [] => true
     | p :: frac => (p == 46 || p == 44) && !frac.isEmpty && frac.all isDigit)

/-- The record built for one index code. -/
structure Item where
  index : JSString
  desc : JSString
  qtyProducts : Option Number
  qtyPacks : Option Number
  count : Nat
  deriving DecidableEq, Repr

/-- The locals `desc`, `qtyProducts`, `qtyPacks` of one occurrence. -/
structure Capture where
  desc : JSString
  qtyProducts : Option Number
  qtyPacks : Option Number
  deriving DecidableEq, Repr

/-- The locals at the start of a look-ahead. -/
def Capture.empty : Capture :=
  ⟨[], none, none⟩

/-- The quantity branch of the look-ahead body, for a line that
`looksLikeNumber`. -/
def captureNumber (next : JSString) (c : Capture) : Capture :=
  let value := parseFloat (replaceFirstComma next)
  if value.isFinite then
    if c.qtyProducts = none then { c with qtyProducts := some value }
    else if c.qtyPacks = none ∧ value.isInteger then { c with qtyPacks := some value }
    else c
  else c

/-- Lines 70-79 of the look-ahead body: the quantity capture, run when the
line `looksLikeNumber`. -/
def numberStep (next : JSString) (c : Capture) : Capture :=
  if looksLikeNumber next then captureNumber next c else c

/-- The test of line 80: description and both quantities are set. -/
def Capture.isFull (c : Capture) : Prop :=
  ¬ c.desc.isEmpty ∧ c.qtyProducts ≠ none ∧ c.qtyPacks ≠ none

instance (c : Capture) : Decidable c.isFull := by
  unfold Capture.isFull
  infer_instance

/-- The result of `parseInput` in `src/src/App.jsx`. -/
structure Parsed where
  items : List Item
  totalFound : Nat
  deriving DecidableEq, Repr

/-- The state of the outer loop: the array `found` and the values of
`indexMap` in insertion order. -/
structure ScanState where
  found : List JSString
  indexMap : List Item
  deriving DecidableEq, Repr

/-- The test `indexMap.has(index)`. -/
def mapHas (indexMap : List Item) (index : JSString) : Bool :=
  indexMap.any (fun item => item.index == index)

/-- The else branch of the merge: the statements run on
`existing = indexMap.get(index)`. -/
def mergeExisting (existing : Item) (c : Capture) : Item :=
  let e1 := { existing with count := existing.count + 1 }
  let e2 := if e1.desc.isEmpty ∧ ¬ c.desc.isEmpty then { e1 with desc := c.desc } else e1
  let e3 :=
    if e2.qtyProducts = none ∧ c.qtyProducts ≠ none then
      { e2 with qtyProducts := c.qtyProducts }
    else e2
  if e3.qtyPacks = none ∧ c.qtyPacks ≠ none then { e3 with qtyPacks := c.qtyPacks } else e3

/-- The entry of key `index` replaced by its merge with the capture. -/
def mapUpdate (index : JSString) (c : Capture) : List Item → List Item
  | [] => []
  | item :: items =>
    if item.index = index then mergeExisting item c :: items
    else item :: mapUpdate index c items

/-- Lines 85-107: the merge into `indexMap` and `found.push(index)`. -/
def mergeStep (st : ScanState) (index : JSString) (c : Capture) : ScanState :=
  if mapHas st.indexMap index then
    ⟨st.found ++ [index], mapUpdate index c st.indexMap⟩
  else
    ⟨st.found ++ [index],
     st.indexMap ++ [⟨index, c.desc, c.qtyProducts, c.qtyPacks, 1⟩]⟩

section Parser

variable (toLowerCase : JSString → JSString)

/-- The function `isHeaderLine`. -/
def isHeaderLine (line : JSString) : Bool :=
  let lower := toLowerCase line
  HEADER_BLACKLIST.any (fun word => includes lower word)

/-- The inner loop (lines 61-83) over the lines `lines[i+1], ...`, from the
current values of the locals. -/
def lookAhead : List JSString → Capture → Capture
  | [], c => c
  | next :: rest, c =>
    if INDEX_REGEX.test next then c
    else if c.desc.isEmpty ∧ ¬ isHeaderLine toLowerCase next ∧ ¬ looksLikeNumber next then
      lookAhead rest { c with desc := next }
    else
      let c2 := numberStep next c
      if c2.isFull then c2 else lookAhead rest c2

/-- The outer loop (lines 45-108) over the lines `lines[i], ...`. -/
def scan : List JSString → ScanState → ScanState
  | [], st => st
  | line :: rest, st =>
    if isHeaderLine toLowerCase line then scan rest st
    else
      match INDEX_REGEX.exec line with
      | none => scan rest st
      | some index => scan rest (mergeStep st index (lookAhead toLowerCase rest Capture.empty))

/-- The normalized lines `text.split(/\r?\n/).map(normalizeLine).filter(...)`
of lines 37-40. -/
def normalizedLines (text : JSString) : List JSString :=
  ((splitLines text).map normalizeLine).filter (fun line => line.length > 0)

/-- The function `parseInput` of `src/src/App.jsx`. -/
def parseInput (text : JSString) : Parsed :=
  let st := scan toLowerCase (normalizedLines text) ⟨[], []⟩
  ⟨st.indexMap, st.found.length⟩

end Parser

section Occurrences

variable (toLowerCase : JSString → JSString)

/-- The iterations of the outer loop that reach the merge, in order: for
each line that is not a header and matches `INDEX_REGEX`, the index code
and the locals its look-ahead ends with. -/
def occurrences : List JSString → List (JSString × Capture)
  | [] => []
  | line :: rest =>
    if isHeaderLine toLowerCase line then occurrences rest
    else
      match INDEX_REGEX.exec line with
      | none => occurrences rest
      | some index => (index, lookAhead toLowerCase rest Capture.empty) :: occurrences rest

/-- The index codes the outer loop extracts: `match[0]` on every line that
is not a header and matches `INDEX_REGEX`, in line order. -/
def indexCodes (lines : List JSString) : List JSString :=
  lines.filterMap (fun line =>
    if isHeaderLine toLowerCase line then none else INDEX_REGEX.exec line)

end Occurrences

/-- The merges of a list of occurrences, from a state. -/
def mergeAll (ocs : List (JSString × Capture)) (st : ScanState) : ScanState :=
  ocs.foldl (fun s oc => mergeStep s oc.1 oc.2) st

/-- The description of the earliest occurrence of code `k` that captured a
non-empty one; empty when there is none. -/
def firstDesc (k : JSString) (ocs : List (JSString × Capture)) : JSString :=
  (((ocs.filter (fun oc => oc.1 = k)).map (fun oc => oc.2.desc)).find?
    (fun d => !d.isEmpty)).getD []

/-- The `qtyProducts` of the earliest occurrence of code `k` that captured
one. -/
def firstQtyProducts (k : JSString) (ocs : List (JSString × Capture)) : Option Number :=
  (ocs.filter (fun oc => oc.1 = k)).findSome? (fun oc => oc.2.qtyProducts)

/-- The `qtyPacks` of the earliest occurrence of code `k` that captured
one. -/
def firstQtyPacks (k : JSString) (ocs : List (JSString × Capture)) : Option Number :=
  (ocs.filter (fun oc => oc.1 = k)).findSome? (fun oc => oc.2.qtyPacks)

/-- The relation between the occurrences merged so far and the state of the
outer loop. -/
structure MergeInv (ocs : List (JSString × Capture)) (st : ScanState) : Prop where
  found_eq : st.found = ocs.map Prod.fst
  nodup : (st.indexMap.map Item.index).Nodup
  keys : ∀ k, k ∈ st.indexMap.map Item.index ↔ k ∈ ocs.map Prod.fst
  sum_count : (st.indexMap.map Item.count).sum = ocs.length
  count_eq : ∀ x ∈ st.indexMap, x.count = (ocs.map Prod.fst).count x.index
  desc_eq : ∀ x ∈ st.indexMap, x.desc = firstDesc x.index ocs
  qtyProducts_eq : ∀ x ∈ st.indexMap, x.qtyProducts = firstQtyProducts x.index ocs
  qtyPacks_eq : ∀ x ∈ st.indexMap, x.qtyPacks = firstQtyPacks x.index ocs

/-- Line 71: the Number read from a bare numeric line. -/
def lineValue (line : JSString) : Number :=
  parseFloat (replaceFirstComma line)

/-- The window of an occurrence: the lines after it up to, and without, the
next line that matches `INDEX_REGEX`. -/
def lookAheadWindow (rest : List JSString) : List JSString :=
  rest.takeWhile (fun l => !INDEX_REGEX.test l)

/-- The first line of a window that is neither a header line nor a bare
numeric line; empty when there is none. -/
def windowDesc (toLowerCase : JSString → JSString) (w : List JSString) : JSString :=
  (w.find? (fun l => !isHeaderLine toLowerCase l && !looksLikeNumber l)).getD []

/-- The claim as written: the value of the first bare numeric line of the
window. -/
def claimedQtyProducts (w : List JSString) : Option Number :=
  (w.find? looksLikeNumber).map lineValue

/-- The claim as written: the value of the first bare numeric line that comes
after the `qtyProducts` line and whose value is a whole number. -/
def claimedQtyPacks (w : List JSString) : Option Number :=
  (((w.dropWhile (fun l => !looksLikeNumber l)).tail).find?
    (fun l => looksLikeNumber l && (lineValue l).isInteger)).map lineValue

/-- A bare numeric line whose value passes `Number.isFinite`. -/
def isFiniteNumberLine (l : JSString) : Bool :=
  looksLikeNumber l && (lineValue l).isFinite

/-- A bare numeric line whose value passes `Number.isInteger`. -/
def isIntegerNumberLine (l : JSString) : Bool :=
  looksLikeNumber l && (lineValue l).isInteger

/-- The value of the first bare numeric line of the window whose value is
finite. -/
def windowQtyProducts (w : List JSString) : Option Number :=
  (w.find? isFiniteNumberLine).map lineValue

/-- The value of the first bare numeric line with a whole value that comes
after the line `windowQtyProducts` reads. -/
def windowQtyPacks (w : List JSString) : Option Number :=
  (((w.dropWhile (fun l => !isFiniteNumberLine l)).tail).find? isIntegerNumberLine).map
    lineValue

/-- The locals the look-ahead ends with when it starts from `c` and runs over
the window `w`: set locals stay, the others are read from the window. -/
def windowCapture (toLowerCase : JSString → JSString) (c : Capture) (w : List JSString) :
    Capture :=
  ⟨if c.desc.isEmpty then windowDesc toLowerCase w else c.desc,
   c.qtyProducts.or (windowQtyProducts w),
   c.qtyPacks.or
     (if c.qtyProducts.isSome then (w.find? isIntegerNumberLine).map lineValue
      else windowQtyPacks w)⟩

/-- The text with every two-character line break `\r\n` replaced by `\n`
(one pass from the left, as `text.replace(/\r\n/g, "\n")`). -/
def replaceCRLF : JSString → JSString
  | [] => []
  | c :: rest =>
    match rest with
    | [] => [c]
    | d :: rest2 =>
      if c = 13 ∧ d = 10 then 10 :: replaceCRLF rest2 else c :: replaceCRLF (d :: rest2)

/-- A list of codes with every later duplicate removed: each code stays at
the place of its first occurrence. -/
def keepFirst : List JSString → List JSString
  | [] => []
  | a :: l => a :: (keepFirst l).filter (fun b => b != a)

/-- The handler `handleRemove` (lines 241-243):
`prev.filter((item) => item.index !== index)`. -/
def handleRemove (prev : List Item) (index : JSString) : List Item :=
  prev.filter (fun item => item.index != index)

/-- The shape `\d{3}\.\d{3}\.\d{2}`: three digits, `.`, three digits, `.`, two
digits, and nothing else. -/
def isIndexCode : JSString → Bool
  | [d1, d2, d3, p1, d4, d5, d6, p2, d7, d8] =>
    isDigit d1 && isDigit d2 && isDigit d3 && p1 == 46 && isDigit d4 && isDigit d5 &&
      isDigit d6 && p2 == 46 && isDigit d7 && isDigit d8
  | _ => false

/-- The claim as written: the line contains, anywhere within it, a substring
of the shape `isIndexCode`. -/
def containsIndexShape : JSString → Bool
  | [] => false
  | c :: rest => isIndexCode ((c :: rest).take 10) || containsIndexShape rest

/-- The number of matches of `INDEX_REGEX` in a text, as the global search
`text.match(/\b\d{3}\.\d{3}\.\d{2}\b/g)` finds them: from left to right, the
search going on after the end of each match (`skip` counts the code units of
the last match still to pass). -/
def INDEX_REGEX.countFrom : Nat → Option Nat → JSString → Nat
  | _, _, [] => 0
  | skip + 1, _, c :: rest => INDEX_REGEX.countFrom skip (some c) rest
  | 0, before, c :: rest =>
    match INDEX_REGEX.matchAt before (c :: rest) with
    | some _ => INDEX_REGEX.countFrom 9 (some c) rest + 1
    | none => INDEX_REGEX.countFrom 0 (some c) rest

/-- The total number of raw matches of `INDEX_REGEX` in a text. -/
def INDEX_REGEX.countMatches (text : JSString) : Nat :=
  INDEX_REGEX.countFrom 0 none text

/-- The list `sortedItems` (lines 206-212): a copy of the records, sorted with
the comparator `(a, b) => a.index.localeCompare(b.index)` when `sort` is on.
`localeCompare` is the host collation, a parameter; `Array.prototype.sort` is
stable, and so is the insertion sort that stands for it. -/
def sortedItems (localeCompare : JSString → JSString → Int) (items : List Item)
    (sort : Bool) : List Item :=
  let next := items
  if sort then next.insertionSort (fun a b => localeCompare a.index b.index ≤ 0) else next

/-- The comparison of two strings by their UTF-16 code units: negative, zero
or positive. -/
def compareCodeUnits : JSString → JSString → Int
  | [], [] => 0
  | [], _ :: _ => -1
  | _ :: _, [] => 1
  | a :: as, b :: bs => if a < b then -1 else if b < a then 1 else compareCodeUnits as bs

/-- What can go wrong in a run of the loops with explicit array accesses. -/
inductive RunError where
  | outOfFuel
  | outOfBounds
  | undefinedEntry
  deriving DecidableEq, Repr

/-- The call `indexMap.get(index)`. -/
def mapGet (indexMap : List Item) (index : JSString) : Option Item :=
  indexMap.find? (fun item => item.index == index)

/-- Lines 85-107 with the access to `existing` checked: reading a field of
an `undefined` entry is an error. -/
def mergeStepChecked (st : ScanState) (index : JSString) (c : Capture) :
    Except RunError ScanState :=
  if mapHas st.indexMap index then
    match mapGet st.indexMap index with
    | none => .error .undefinedEntry
    | some _ => .ok ⟨st.found ++ [index], mapUpdate index c st.indexMap⟩
  else
    .ok ⟨st.found ++ [index],
      st.indexMap ++ [⟨index, c.desc, c.qtyProducts, c.qtyPacks, 1⟩]⟩

section Checked

variable (toLowerCase : JSString → JSString)

/-- The inner loop `for (let j = i + 1; j < lines.length; j += 1)` with its
index: each unit of fuel pays one evaluation of the loop test, and `lines[j]`
outside the array is an error. -/
def lookAheadLoop (lines : List JSString) : Nat → Nat → Capture → Except RunError Capture
  | 0, _, _ => .error .outOfFuel
  | fuel + 1, j, c =>
    if j < lines.length then
      match lines[j]? with
      | none => .error .outOfBounds
      | some next =>
        if INDEX_REGEX.test next then .ok c
        else if c.desc.isEmpty ∧ ¬ isHeaderLine toLowerCase next ∧ ¬ looksLikeNumber next then
          lookAheadLoop lines fuel (j + 1) { c with desc := next }
        else
          let c2 := numberStep next c
          if c2.isFull then .ok c2 else lookAheadLoop lines fuel (j + 1) c2
    else .ok c

/-- The outer loop `for (let i = 0; i < lines.length; i += 1)` with its
index, fuel and checked accesses. -/
def scanLoop (lines : List JSString) : Nat → Nat → ScanState → Except RunError ScanState
  | 0, _, _ => .error .outOfFuel
  | fuel + 1, i, st =>
    if i < lines.length then
      match lines[i]? with
      | none => .error .outOfBounds
      | some line =>
        if isHeaderLine toLowerCase line then scanLoop lines fuel (i + 1) st
        else
          match INDEX_REGEX.exec line with
          | none => scanLoop lines fuel (i + 1) st
          | some index =>
            match lookAheadLoop toLowerCase lines (lines.length - i) (i + 1) Capture.empty with
            | .error e => .error e
            | .ok c =>
              match mergeStepChecked st index c with
              | .error e => .error e
              | .ok st2 => scanLoop lines fuel (i + 1) st2
    else .ok st

/-- The function `parseInput` run with indexed loops: the outer loop gets
`lines.length + 1` evaluations of its test, the inner loop started at `i`
gets `lines.length - i`. -/
def parseInputChecked (text : JSString) : Except RunError Parsed :=
  let lines := normalizedLines text
  match scanLoop toLowerCase lines (lines.length + 1) 0 ⟨[], []⟩ with
  | .error e => .error e
  | .ok st => .ok ⟨st.indexMap, st.found.length⟩

end Checked

/-- A lowercasing that agrees with `toLowerCase` on ASCII text and on the
Polish letters; it instantiates the parameter in concrete runs. -/
def toLowerCaseBasic (s : JSString) : JSString :=
  s.map (fun c =>
    if 65 ≤ c ∧ c ≤ 90 then c + 32
    else if c = 260 ∨ c = 262 ∨ c = 280 ∨ c = 321 ∨ c = 323 ∨ c = 346 ∨ c = 377 ∨ c = 379
      then c + 1
    else if c = 211 then 243
    else c)

end AppJsx

/-! The copy of the parser in `src/app.js`, embedded from that file. The
record and local shapes (`Item`, `Capture`, `ScanState`) are those of the other
copy. -/

namespace AppJs

open JS

open AppJsx (Item Capture ScanState)

/-- The constant `HEADER_BLACKLIST` of `src/app.js`. -/
def HEADER_BLACKLIST : List JSString :=
  [utf16 "numer", utf16 "cdu", utf16 "indeks", utf16 "opis", utf16 "cena",
   utf16 "ilość", utf16 "ilosc", utf16 "wartość", utf16 "wartosc",
   utf16 "razem", utf16 "suma", utf16 "produkt", utf16 "nr", utf16 "pozycja",
   utf16 "kod"]

/-- The pattern `INDEX_REGEX` of `src/app.js` tried at one position. -/
def INDEX_REGEX.matchAt (before : Option Nat) : JSString → Option JSString
  | d1 :: d2 :: d3 :: p1 :: d4 :: d5 :: d6 :: p2 :: d7 :: d8 :: rest =>
    if wordBoundary before (some d1) && isDigit d1 && isDigit d2 && isDigit d3 &&
        p1 == 46 && isDigit d4 && isDigit d5 && isDigit d6 && p2 == 46 &&
        isDigit d7 && isDigit d8 && wordBoundary (some d8) rest.head? then
      some [d1, d2, d3, p1, d4, d5, d6, p2, d7, d8]
    else none
  | _ => none

/-- The leftmost match of `INDEX_REGEX` from a position on. -/
def INDEX_REGEX.execFrom : Option Nat → JSString → Option JSString
  | _, [] => none
  | before, c :: rest =>
    match INDEX_REGEX.matchAt before (c :: rest) with
    | some m => some m
    | none => INDEX_REGEX.execFrom (some c) rest

/-- The call `line.match(INDEX_REGEX)` of `src/app.js`. -/
def INDEX_REGEX.exec (line : JSString) : Option JSString :=
  INDEX_REGEX.execFrom none line

/-- The call `INDEX_REGEX.test(line)` of `src/app.js`. -/
def INDEX_REGEX.test (line : JSString) : Bool :=
  (INDEX_REGEX.exec line).isSome

/-- The function `normalizeLine` of `src/app.js`. -/
def normalizeLine (line : JSString) : JSString :=
  trim (collapseWhiteSpace line)

/-- The function `looksLikeNumber` of `src/app.js`. -/
def looksLikeNumber (line : JSString) : Bool :=
  let body := if line.head? == some 45 then line.tail else line
  let intDigits := body.takeWhile isDigit
  let rest := body.dropWhile isDigit
  !intDigits.isEmpty &&
    (match rest with
     | [] => true
     | p :: frac => (p == 46 || p == 44) && !frac.isEmpty && frac.all isDigit)

/-- Lines 84-91 of `src/app.js`: the quantity capture. -/
def captureNumber (next : JSString) (c : Capture) : Capture :=
  let value := parseFloat (replaceFirstComma next)
  if value.isFinite then
    if c.qtyProducts = none then { c with qtyProducts := some value }
    else if c.qtyPacks = none ∧ value.isInteger then { c with qtyPacks := some value }
    else c
  else c

/-- Lines 83-92 of `src/app.js`. -/
def numberStep (next : JSString) (c : Capture) : Capture :=
  if looksLikeNumber next then captureNumber next c else c

/-- The result of `parseInput` in `src/app.js`. -/
structure Parsed where
  found : List JSString
  items : List Item
  deriving DecidableEq, Repr

/-- The test `indexMap.has(key)`. -/
def mapHas (indexMap : List Item) (key : JSString) : Bool :=
  indexMap.any (fun item => item.index == key)

/-- Lines 108-118 of `src/app.js`, run on `existing = indexMap.get(key)`. -/
def mergeExisting (existing : Item) (c : Capture) : Item :=
  let e1 := { existing with count := existing.count + 1 }
  let e2 := if e1.desc.isEmpty ∧ ¬ c.desc.isEmpty then { e1 with desc := c.desc } else e1
  let e3 :=
    if e2.qtyProducts = none ∧ c.qtyProducts ≠ none then
      { e2 with qtyProducts := c.qtyProducts }
    else e2
  if e3.qtyPacks = none ∧ c.qtyPacks ≠ none then { e3 with qtyPacks := c.qtyPacks } else e3

/-- The entry of key `key` replaced by its merge with the capture. -/
def mapUpdate (key : JSString) (c : Capture) : List Item → List Item
  | [] => []
  | item :: items =>
    if item.index = key then mergeExisting item c :: items
    else item :: mapUpdate key c items

/-- Lines 98-121 of `src/app.js`: `key = index`, the merge into `indexMap`
and `found.push(index)`. -/
def mergeStep (st : ScanState) (index : JSString) (c : Capture) : ScanState :=
  let key := index
  if mapHas st.indexMap key then
    ⟨st.found ++ [index], mapUpdate key c st.indexMap⟩
  else
    ⟨st.found ++ [index],
     st.indexMap ++ [⟨index, c.desc, c.qtyProducts, c.qtyPacks, 1⟩]⟩

section Parser

variable (toLowerCase : JSString → JSString)

/-- The function `isHeaderLine` of `src/app.js`. -/
def isHeaderLine (line : JSString) : Bool :=
  let lower := toLowerCase line
  HEADER_BLACKLIST.any (fun word => includes lower word)

/-- The inner loop (lines 74-96 of `src/app.js`). -/
def lookAhead : List JSString → Capture → Capture
  | [], c => c
  | next :: rest, c =>
    if INDEX_REGEX.test next then c
    else if c.desc.isEmpty ∧ ¬ isHeaderLine toLowerCase next ∧ ¬ looksLikeNumber next then
      lookAhead rest { c with desc := next }
    else
      let c2 := numberStep next c
      if c2.isFull then c2 else lookAhead rest c2

/-- The outer loop (lines 58-122 of `src/app.js`). -/
def scan : List JSString → ScanState → ScanState
  | [], st => st
  | line :: rest, st =>
    if isHeaderLine toLowerCase line then scan rest st
    else
      match INDEX_REGEX.exec line with
      | none => scan rest st
      | some index => scan rest (mergeStep st index (lookAhead toLowerCase rest Capture.empty))

/-- The normalized lines of lines 50-53 of `src/app.js`. -/
def normalizedLines (text : JSString) : List JSString :=
  ((splitLines text).map normalizeLine).filter (fun line => line.length > 0)

/-- The function `parseInput` of `src/app.js`. -/
def parseInput (text : JSString) : Parsed :=
  let st := scan toLowerCase (normalizedLines text) ⟨[], []⟩
  ⟨st.found, st.indexMap⟩

end Parser

end AppJs

namespace AppJsx

open JS

/-! ## The outer loop as a sequence of merges -/

theorem scan_eq_mergeAll (toLowerCase : JSString → JSString) (lines : List JSString)
    (st : ScanState) :
    scan toLowerCase lines st = mergeAll (occurrences toLowerCase lines) st := by
  induction lines generalizing st with
  | nil => rfl
  | cons line rest ih =>
    unfold scan occurrences
    by_cases hh : isHeaderLine toLowerCase line = true
    · simp [hh, ih]
    · cases hm : INDEX_REGEX.exec line with
      | none => simp [hh, ih]
      | some index => simp [hh, ih, mergeAll]

theorem occurrences_map_fst (toLowerCase : JSString → JSString) (lines : List JSString) :
    (occurrences toLowerCase lines).map Prod.fst = indexCodes toLowerCase lines := by
  induction lines with
  | nil => rfl
  | cons line rest ih =>
    unfold indexCodes at ih
    unfold occurrences
    by_cases hh : isHeaderLine toLowerCase line = true
    · simp [hh, ih, indexCodes]
    · cases hm : INDEX_REGEX.exec line with
      | none => simp [hh, ih, indexCodes, hm]
      | some index => simp [hh, ih, indexCodes, hm]

theorem mergeAll_append (xs ys : List (JSString × Capture)) (st : ScanState) :
    mergeAll (xs ++ ys) st = mergeAll ys (mergeAll xs st) := by
  simp [mergeAll, List.foldl_append]

theorem mergeStep_found (st : ScanState) (index : JSString) (c : Capture) :
    (mergeStep st index c).found = st.found ++ [index] := by
  unfold mergeStep
  split <;> rfl

theorem mergeAll_found (ocs : List (JSString × Capture)) (st : ScanState) :
    (mergeAll ocs st).found = st.found ++ ocs.map Prod.fst := by
  induction ocs generalizing st with
  | nil => simp [mergeAll]
  | cons oc rest ih =>
    have h := ih (mergeStep st oc.1 oc.2)
    simp only [mergeAll, List.foldl_cons] at h ⊢
    rw [h, mergeStep_found]
    simp

theorem mapHas_iff (m : List Item) (index : JSString) :
    mapHas m index = true ↔ index ∈ m.map Item.index := by
  simp [mapHas, List.any_eq_true]

theorem mergeExisting_index (e : Item) (c : Capture) : (mergeExisting e c).index = e.index := by
  unfold mergeExisting
  simp only
  split_ifs <;> rfl

theorem mergeExisting_count (e : Item) (c : Capture) :
    (mergeExisting e c).count = e.count + 1 := by
  unfold mergeExisting
  simp only
  split_ifs <;> rfl

theorem mapUpdate_map_index (index : JSString) (c : Capture) (m : List Item) :
    (mapUpdate index c m).map Item.index = m.map Item.index := by
  induction m with
  | nil => rfl
  | cons item items ih =>
    unfold mapUpdate
    split_ifs with h
    · simp [mergeExisting_index]
    · simp [ih]

theorem mapUpdate_sum_count (index : JSString) (c : Capture) (m : List Item)
    (h : index ∈ m.map Item.index) :
    ((mapUpdate index c m).map Item.count).sum = (m.map Item.count).sum + 1 := by
  induction m with
  | nil => simp at h
  | cons item items ih =>
    unfold mapUpdate
    split_ifs with hi
    · simp [mergeExisting_count]; omega
    · have : index ∈ items.map Item.index := by
        simp only [List.map_cons, List.mem_cons] at h
        rcases h with h | h
        · exact absurd h.symm hi
        · exact h
      simp [ih this]; omega

theorem mem_mapUpdate (index : JSString) (c : Capture) (m : List Item)
    (hnd : (m.map Item.index).Nodup) (x : Item) (hx : x ∈ mapUpdate index c m) :
    (x ∈ m ∧ x.index ≠ index) ∨ ∃ e ∈ m, e.index = index ∧ x = mergeExisting e c := by
  induction m with
  | nil => simp [mapUpdate] at hx
  | cons item items ih =>
    unfold mapUpdate at hx
    simp only [List.map_cons, List.nodup_cons] at hnd
    split_ifs at hx with hi
    · simp only [List.mem_cons] at hx
      rcases hx with hx | hx
      · exact Or.inr ⟨item, by simp, hi, hx⟩
      · refine Or.inl ⟨by simp [hx], ?_⟩
        intro hxi
        exact hnd.1 (by rw [hi, ← hxi]; exact List.mem_map_of_mem _ hx)
    · simp only [List.mem_cons] at hx
      rcases hx with hx | hx
      · exact Or.inl ⟨by simp [hx], by rw [hx]; exact hi⟩
      · rcases ih hnd.2 hx with ⟨h1, h2⟩ | ⟨e, he, h1, h2⟩
        · exact Or.inl ⟨by simp [h1], h2⟩
        · exact Or.inr ⟨e, by simp [he], h1, h2⟩

/-! ## First-wins values over a growing list of occurrences -/

theorem firstDesc_append_other (k k2 : JSString) (c : Capture)
    (ocs : List (JSString × Capture)) (h : k2 ≠ k) :
    firstDesc k (ocs ++ [(k2, c)]) = firstDesc k ocs := by
  simp [firstDesc, List.filter_append, h]

theorem firstDesc_append_same (k : JSString) (c : Capture) (ocs : List (JSString × Capture)) :
    firstDesc k (ocs ++ [(k, c)]) =
      if (firstDesc k ocs).isEmpty ∧ ¬ c.desc.isEmpty then c.desc else firstDesc k ocs := by
  simp only [firstDesc, List.filter_append, List.map_append, List.find?_append]
  cases hf : List.find? (fun d => !d.isEmpty)
      (List.map (fun oc => oc.2.desc) (List.filter (fun oc => decide (oc.1 = k)) ocs)) with
  | none =>
    cases hc : c.desc with
    | nil => simp [hc]
    | cons a t => simp [hc]
  | some d =>
    have hd := List.find?_some hf
    cases d with
    | nil => simp at hd
    | cons a t => simp

theorem firstQtyProducts_append_other (k k2 : JSString) (c : Capture)
    (ocs : List (JSString × Capture)) (h : k2 ≠ k) :
    firstQtyProducts k (ocs ++ [(k2, c)]) = firstQtyProducts k ocs := by
  simp [firstQtyProducts, List.filter_append, h]

theorem firstQtyProducts_append_same (k : JSString) (c : Capture)
    (ocs : List (JSString × Capture)) :
    firstQtyProducts k (ocs ++ [(k, c)]) =
      if firstQtyProducts k ocs = none ∧ c.qtyProducts ≠ none then c.qtyProducts
      else firstQtyProducts k ocs := by
  simp only [firstQtyProducts, List.filter_append, List.findSome?_append]
  cases hf : List.findSome? (fun oc => oc.2.qtyProducts)
      (List.filter (fun oc => decide (oc.1 = k)) ocs) with
  | none => cases hc : c.qtyProducts <;> simp [hc]
  | some d => simp

theorem firstQtyPacks_append_other (k k2 : JSString) (c : Capture)
    (ocs : List (JSString × Capture)) (h : k2 ≠ k) :
    firstQtyPacks k (ocs ++ [(k2, c)]) = firstQtyPacks k ocs := by
  simp [firstQtyPacks, List.filter_append, h]

theorem firstQtyPacks_append_same (k : JSString) (c : Capture)
    (ocs : List (JSString × Capture)) :
    firstQtyPacks k (ocs ++ [(k, c)]) =
      if firstQtyPacks k ocs = none ∧ c.qtyPacks ≠ none then c.qtyPacks
      else firstQtyPacks k ocs := by
  simp only [firstQtyPacks, List.filter_append, List.findSome?_append]
  cases hf : List.findSome? (fun oc => oc.2.qtyPacks)
      (List.filter (fun oc => decide (oc.1 = k)) ocs) with
  | none => cases hc : c.qtyPacks <;> simp [hc]
  | some d => simp

theorem filter_eq_nil_of_not_mem (k : JSString) (ocs : List (JSString × Capture))
    (h : k ∉ ocs.map Prod.fst) : ocs.filter (fun oc => oc.1 = k) = [] := by
  rw [List.filter_eq_nil_iff]
  intro oc hoc heq
  exact h (List.mem_map.mpr ⟨oc, hoc, by simpa using heq⟩)

theorem mergeExisting_desc (e : Item) (c : Capture) :
    (mergeExisting e c).desc = if e.desc.isEmpty ∧ ¬ c.desc.isEmpty then c.desc else e.desc := by
  unfold mergeExisting
  simp only
  split_ifs <;> rfl

theorem mergeExisting_qtyProducts (e : Item) (c : Capture) :
    (mergeExisting e c).qtyProducts =
      if e.qtyProducts = none ∧ c.qtyProducts ≠ none then c.qtyProducts else e.qtyProducts := by
  unfold mergeExisting
  simp only
  split_ifs <;> simp_all

theorem mergeExisting_qtyPacks (e : Item) (c : Capture) :
    (mergeExisting e c).qtyPacks =
      if e.qtyPacks = none ∧ c.qtyPacks ≠ none then c.qtyPacks else e.qtyPacks := by
  unfold mergeExisting
  simp only
  split_ifs <;> simp_all

/-! ## The invariant of the outer loop -/

theorem mergeInv_nil : MergeInv [] ⟨[], []⟩ := by
  constructor <;> simp

theorem mergeInv_step (ocs : List (JSString × Capture)) (st : ScanState)
    (k : JSString) (c : Capture) (h : MergeInv ocs st) :
    MergeInv (ocs ++ [(k, c)]) (mergeStep st k c) := by
  by_cases hk : mapHas st.indexMap k = true
  · have hmem : k ∈ st.indexMap.map Item.index := (mapHas_iff _ _).mp hk
    have hst : mergeStep st k c = ⟨st.found ++ [k], mapUpdate k c st.indexMap⟩ := by
      simp [mergeStep, hk]
    rw [hst]
    have hcase := mem_mapUpdate k c st.indexMap h.nodup
    constructor
    · simp [h.found_eq]
    · simp only [mapUpdate_map_index]; exact h.nodup
    · intro k2
      simp only [mapUpdate_map_index, List.map_append, List.mem_append, List.map_cons,
        List.map_nil, List.mem_singleton, h.keys]
      constructor
      · exact Or.inl
      · rintro (h1 | h1)
        · exact h1
        · rw [h1]; exact (h.keys k).mp hmem
    · simp only [mapUpdate_sum_count k c _ hmem, h.sum_count]; simp
    · intro x hx
      rcases hcase x hx with ⟨h1, h2⟩ | ⟨e, he, h1, h2⟩
      · have hz : List.count x.index [k] = 0 :=
          List.count_eq_zero_of_not_mem (by simpa using h2)
        simp [h.count_eq x h1, List.count_append, hz]
      · simp [h2, mergeExisting_index, mergeExisting_count, h.count_eq e he, h1]
    · intro x hx
      rcases hcase x hx with ⟨h1, h2⟩ | ⟨e, he, h1, h2⟩
      · rw [firstDesc_append_other _ _ _ _ (Ne.symm h2)]; exact h.desc_eq x h1
      · rw [h2, mergeExisting_index, mergeExisting_desc, h1, firstDesc_append_same,
          h.desc_eq e he, h1]
    · intro x hx
      rcases hcase x hx with ⟨h1, h2⟩ | ⟨e, he, h1, h2⟩
      · rw [firstQtyProducts_append_other _ _ _ _ (Ne.symm h2)]; exact h.qtyProducts_eq x h1
      · rw [h2, mergeExisting_index, mergeExisting_qtyProducts, h1,
          firstQtyProducts_append_same, h.qtyProducts_eq e he, h1]
    · intro x hx
      rcases hcase x hx with ⟨h1, h2⟩ | ⟨e, he, h1, h2⟩
      · rw [firstQtyPacks_append_other _ _ _ _ (Ne.symm h2)]; exact h.qtyPacks_eq x h1
      · rw [h2, mergeExisting_index, mergeExisting_qtyPacks, h1,
          firstQtyPacks_append_same, h.qtyPacks_eq e he, h1]
  · have hnot : k ∉ st.indexMap.map Item.index := fun hm => hk ((mapHas_iff _ _).mpr hm)
    have hnocc : k ∉ ocs.map Prod.fst := fun hm => hnot ((h.keys k).mpr hm)
    have hfil := filter_eq_nil_of_not_mem k ocs hnocc
    have hst : mergeStep st k c =
        ⟨st.found ++ [k], st.indexMap ++ [⟨k, c.desc, c.qtyProducts, c.qtyPacks, 1⟩]⟩ := by
      simp [mergeStep, hk]
    rw [hst]
    have hne : ∀ x ∈ st.indexMap, k ≠ x.index := by
      intro x hx hxk
      exact hnot (by rw [hxk]; exact List.mem_map_of_mem _ hx)
    constructor
    · simp [h.found_eq]
    · simp only [List.map_append, List.map_cons, List.map_nil]
      rw [List.nodup_append]
      refine ⟨h.nodup, by simp, ?_⟩
      intro a ha hb
      simp only [List.mem_singleton] at hb
      exact hnot (hb ▸ ha)
    · intro k2
      simp only [List.map_append, List.mem_append, List.map_cons, List.map_nil,
        List.mem_singleton, h.keys]
    · simp [h.sum_count]
    · intro x hx
      simp only [List.mem_append, List.mem_singleton] at hx
      rcases hx with hx | hx
      · have hz : List.count x.index [k] = 0 :=
          List.count_eq_zero_of_not_mem (by simpa using Ne.symm (hne x hx))
        simp [h.count_eq x hx, List.count_append, hz]
      · simp [hx, List.count_append, List.count_eq_zero_of_not_mem hnocc]
    · intro x hx
      simp only [List.mem_append, List.mem_singleton] at hx
      rcases hx with hx | hx
      · rw [firstDesc_append_other _ _ _ _ (hne x hx)]; exact h.desc_eq x hx
      · subst hx
        simp only [firstDesc, List.filter_append, hfil]
        cases hc : c.desc <;> simp [hc]
    · intro x hx
      simp only [List.mem_append, List.mem_singleton] at hx
      rcases hx with hx | hx
      · rw [firstQtyProducts_append_other _ _ _ _ (hne x hx)]; exact h.qtyProducts_eq x hx
      · subst hx
        simp only [firstQtyProducts, List.filter_append, hfil]
        cases hc : c.qtyProducts <;> simp [hc]
    · intro x hx
      simp only [List.mem_append, List.mem_singleton] at hx
      rcases hx with hx | hx
      · rw [firstQtyPacks_append_other _ _ _ _ (hne x hx)]; exact h.qtyPacks_eq x hx
      · subst hx
        simp only [firstQtyPacks, List.filter_append, hfil]
        cases hc : c.qtyPacks <;> simp [hc]

theorem mergeInv_mergeAll (done ocs : List (JSString × Capture)) (st : ScanState)
    (h : MergeInv done st) : MergeInv (done ++ ocs) (mergeAll ocs st) := by
  induction ocs generalizing done st with
  | nil => simpa [mergeAll] using h
  | cons oc rest ih =>
    have h1 := mergeInv_step done st oc.1 oc.2 h
    have h2 := ih (done ++ [(oc.1, oc.2)]) (mergeStep st oc.1 oc.2) h1
    simpa [mergeAll] using h2

theorem mergeInv_scan (toLowerCase : JSString → JSString) (lines : List JSString) :
    MergeInv (occurrences toLowerCase lines) (scan toLowerCase lines ⟨[], []⟩) := by
  rw [scan_eq_mergeAll]
  simpa using mergeInv_mergeAll [] (occurrences toLowerCase lines) ⟨[], []⟩ mergeInv_nil

theorem length_le_sum_of_pos (l : List Nat) (h : ∀ n ∈ l, 1 ≤ n) : l.length ≤ l.sum := by
  induction l with
  | nil => simp
  | cons a t ih =>
    have h1 := h a (by simp)
    have h2 := ih (fun n hn => h n (by simp [hn]))
    simp only [List.length_cons, List.sum_cons]
    omega

theorem count_pos_of_inv (ocs : List (JSString × Capture)) (st : ScanState)
    (h : MergeInv ocs st) (x : Item) (hx : x ∈ st.indexMap) : 1 ≤ x.count := by
  rw [h.count_eq x hx]
  have hk : x.index ∈ ocs.map Prod.fst := (h.keys x.index).mp (List.mem_map_of_mem _ hx)
  exact List.count_pos_iff.mpr hk

/-! ## The parser depends on the lowercasing only through the header test -/

theorem lookAhead_congr (f g : JSString → JSString) (rest : List JSString) (c : Capture)
    (h : ∀ l ∈ rest, isHeaderLine f l = isHeaderLine g l) :
    lookAhead f rest c = lookAhead g rest c := by
  induction rest generalizing c with
  | nil => rfl
  | cons next rest ih =>
    have hn := h next (by simp)
    have hr : ∀ l ∈ rest, isHeaderLine f l = isHeaderLine g l :=
      fun l hl => h l (by simp [hl])
    unfold lookAhead
    simp only [hn, ih _ hr]

theorem scan_congr (f g : JSString → JSString) (lines : List JSString) (st : ScanState)
    (h : ∀ l ∈ lines, isHeaderLine f l = isHeaderLine g l) :
    scan f lines st = scan g lines st := by
  induction lines generalizing st with
  | nil => rfl
  | cons line rest ih =>
    have hn := h line (by simp)
    have hr : ∀ l ∈ rest, isHeaderLine f l = isHeaderLine g l :=
      fun l hl => h l (by simp [hl])
    unfold scan
    simp only [hn, ih _ hr, lookAhead_congr f g rest _ hr]

theorem parseInput_congr (f g : JSString → JSString) (text : JSString)
    (h : ∀ l ∈ normalizedLines text, isHeaderLine f l = isHeaderLine g l) :
    parseInput f text = parseInput g text := by
  simp only [parseInput, scan_congr f g _ _ h]

/-! ## Claims -/

/-- C1: for every input text the total occurrence count returned by
`parseInput` is at least the number of records, and equals the sum of the
`count` fields of the records. -/
theorem C1_total_count (toLowerCase : JSString → JSString) (text : JSString) :
    (parseInput toLowerCase text).items.length ≤ (parseInput toLowerCase text).totalFound ∧
    (parseInput toLowerCase text).totalFound =
      ((parseInput toLowerCase text).items.map Item.count).sum := by
  have h := mergeInv_scan toLowerCase (normalizedLines text)
  have hsum : (parseInput toLowerCase text).totalFound =
      ((parseInput toLowerCase text).items.map Item.count).sum := by
    simp only [parseInput]
    rw [h.sum_count, h.found_eq, List.length_map]
  refine ⟨?_, hsum⟩
  rw [hsum]
  have hl := length_le_sum_of_pos ((parseInput toLowerCase text).items.map Item.count) (by
    intro n hn
    rcases List.mem_map.mp hn with ⟨x, hx, rfl⟩
    exact count_pos_of_inv _ _ h x hx)
  simpa using hl

/-- C3: every field of a returned record is merged first-wins and
independently of the other fields: the description is the one captured by
the earliest occurrence of the record's index code that captured a non-empty
description (empty when none did), `qtyProducts` is the one captured by the
earliest occurrence that captured a non-null one (null when none did), and
likewise `qtyPacks`. -/
theorem C3_first_wins (toLowerCase : JSString → JSString) (text : JSString) (x : Item)
    (hx : x ∈ (parseInput toLowerCase text).items) :
    x.desc = firstDesc x.index (occurrences toLowerCase (normalizedLines text)) ∧
    x.qtyProducts =
      firstQtyProducts x.index (occurrences toLowerCase (normalizedLines text)) ∧
    x.qtyPacks = firstQtyPacks x.index (occurrences toLowerCase (normalizedLines text)) := by
  have h := mergeInv_scan toLowerCase (normalizedLines text)
  exact ⟨h.desc_eq x hx, h.qtyProducts_eq x hx, h.qtyPacks_eq x hx⟩

/-- C5: the index codes of the records returned by `parseInput` are pairwise
distinct. -/
theorem C5_index_unique (toLowerCase : JSString → JSString) (text : JSString) :
    ((parseInput toLowerCase text).items.map Item.index).Nodup :=
  (mergeInv_scan toLowerCase (normalizedLines text)).nodup

/-- C6: a header line is never an index source. The record indices are
exactly the codes matched (leftmost match) on the normalized lines that are
not header lines and match `INDEX_REGEX`; the `count` of a record is at least
1 and is the number of such lines whose match is its code; the total is the
number of such lines; and a code matched only on header lines gives no
record. -/
theorem C6_header_never_source (toLowerCase : JSString → JSString) (text : JSString) :
    (∀ k, k ∈ (parseInput toLowerCase text).items.map Item.index ↔
        k ∈ indexCodes toLowerCase (normalizedLines text)) ∧
    (∀ x ∈ (parseInput toLowerCase text).items,
        1 ≤ x.count ∧
        x.count = (indexCodes toLowerCase (normalizedLines text)).count x.index) ∧
    (parseInput toLowerCase text).totalFound =
      (indexCodes toLowerCase (normalizedLines text)).length ∧
    (∀ k, (∀ line ∈ normalizedLines text,
          INDEX_REGEX.exec line = some k → isHeaderLine toLowerCase line = true) →
        k ∉ (parseInput toLowerCase text).items.map Item.index) := by
  have h := mergeInv_scan toLowerCase (normalizedLines text)
  have hk : ∀ k, k ∈ (parseInput toLowerCase text).items.map Item.index ↔
      k ∈ indexCodes toLowerCase (normalizedLines text) := by
    intro k
    rw [← occurrences_map_fst]
    exact h.keys k
  refine ⟨hk, ?_, ?_, ?_⟩
  · intro x hx
    refine ⟨count_pos_of_inv _ _ h x hx, ?_⟩
    rw [← occurrences_map_fst]
    exact h.count_eq x hx
  · simp only [parseInput]
    rw [h.found_eq, occurrences_map_fst]
  · intro k hall hmem
    have hc := (hk k).mp hmem
    simp only [indexCodes, List.mem_filterMap] at hc
    rcases hc with ⟨line, hline, hcode⟩
    by_cases hh : isHeaderLine toLowerCase line = true
    · simp [hh] at hcode
    · simp only [hh] at hcode
      exact hh (hall line hline (by simpa using hcode))

set_option maxRecDepth 100000 in
/-- C2: on the text `"Opis Indeks\n123.456.78\nKrzesło\n4\n2\n123.456.78\nKrzesło\n4"`
`parseInput` returns exactly one record, with index `123.456.78`, description
`Krzesło`, `qtyProducts` the double 4, `qtyPacks` the double 2 and `count` 2,
and `totalFound` 2. The lowercasing is only asked to behave as `toLowerCase`
does on the five distinct lines of the text. -/
theorem C2_example_record (toLowerCase : JSString → JSString)
    (h1 : toLowerCase (utf16 "Opis Indeks") = utf16 "opis indeks")
    (h2 : toLowerCase (utf16 "123.456.78") = utf16 "123.456.78")
    (h3 : toLowerCase (utf16 "Krzesło") = utf16 "krzesło")
    (h4 : toLowerCase (utf16 "4") = utf16 "4")
    (h5 : toLowerCase (utf16 "2") = utf16 "2") :
    parseInput toLowerCase
        (utf16 "Opis Indeks\n123.456.78\nKrzesło\n4\n2\n123.456.78\nKrzesło\n4") =
      ⟨[⟨utf16 "123.456.78", utf16 "Krzesło", some (.finite false (2 ^ 52) 1024),
          some (.finite false (2 ^ 52) 1023), 2⟩], 2⟩ ∧
    Number.toInt? (.finite false (2 ^ 52) 1024) = some 4 ∧
    Number.toInt? (.finite false (2 ^ 52) 1023) = some 2 := by
  have hl : normalizedLines
      (utf16 "Opis Indeks\n123.456.78\nKrzesło\n4\n2\n123.456.78\nKrzesło\n4") =
      [utf16 "Opis Indeks", utf16 "123.456.78", utf16 "Krzesło", utf16 "4", utf16 "2",
       utf16 "123.456.78", utf16 "Krzesło", utf16 "4"] := by decide
  have hc : ∀ l ∈ normalizedLines
      (utf16 "Opis Indeks\n123.456.78\nKrzesło\n4\n2\n123.456.78\nKrzesło\n4"),
      isHeaderLine toLowerCase l = isHeaderLine toLowerCaseBasic l := by
    rw [hl]
    intro l hmem
    simp only [List.mem_cons, List.mem_singleton, List.not_mem_nil, or_false] at hmem
    rcases hmem with rfl | rfl | rfl | rfl | rfl | rfl | rfl | rfl
    · simp only [isHeaderLine, h1]; decide
    · simp only [isHeaderLine, h2]; decide
    · simp only [isHeaderLine, h3]; decide
    · simp only [isHeaderLine, h4]; decide
    · simp only [isHeaderLine, h5]; decide
    · simp only [isHeaderLine, h2]; decide
    · simp only [isHeaderLine, h3]; decide
    · simp only [isHeaderLine, h4]; decide
  rw [parseInput_congr toLowerCase toLowerCaseBasic _ hc]
  decide

set_option maxRecDepth 100000 in
theorem C2_example_record_witness :
    parseInput toLowerCaseBasic
        (utf16 "Opis Indeks\n123.456.78\nKrzesło\n4\n2\n123.456.78\nKrzesło\n4") =
      ⟨[⟨utf16 "123.456.78", utf16 "Krzesło", some (.finite false (2 ^ 52) 1024),
          some (.finite false (2 ^ 52) 1023), 2⟩], 2⟩ ∧
    Number.toInt? (.finite false (2 ^ 52) 1024) = some 4 ∧
    Number.toInt? (.finite false (2 ^ 52) 1023) = some 2 :=
  C2_example_record toLowerCaseBasic (by decide) (by decide) (by decide) (by decide)
    (by decide)

set_option maxRecDepth 100000 in
theorem C3_first_wins_witness :
    (⟨utf16 "111.222.33", utf16 "Chair", some (.finite false (5 * 2 ^ 50) 1024), none, 2⟩ :
        Item) ∈
      (parseInput toLowerCaseBasic (utf16 "111.222.33\n111.222.33\nChair\n5")).items ∧
    (utf16 "Chair" = firstDesc (utf16 "111.222.33")
        (occurrences toLowerCaseBasic
          (normalizedLines (utf16 "111.222.33\n111.222.33\nChair\n5"))) ∧
      some (Number.finite false (5 * 2 ^ 50) 1024) = firstQtyProducts (utf16 "111.222.33")
        (occurrences toLowerCaseBasic
          (normalizedLines (utf16 "111.222.33\n111.222.33\nChair\n5"))) ∧
      none = firstQtyPacks (utf16 "111.222.33")
        (occurrences toLowerCaseBasic
          (normalizedLines (utf16 "111.222.33\n111.222.33\nChair\n5")))) :=
  ⟨by decide,
   C3_first_wins toLowerCaseBasic (utf16 "111.222.33\n111.222.33\nChair\n5")
     ⟨utf16 "111.222.33", utf16 "Chair", some (.finite false (5 * 2 ^ 50) 1024), none, 2⟩
     (by decide)⟩

theorem scan_no_match (toLowerCase : JSString → JSString) (lines : List JSString)
    (st : ScanState) (h : ∀ l ∈ lines, INDEX_REGEX.test l = false) :
    scan toLowerCase lines st = st := by
  induction lines generalizing st with
  | nil => rfl
  | cons line rest ih =>
    have hn := h line (by simp)
    have hr : ∀ l ∈ rest, INDEX_REGEX.test l = false := fun l hl => h l (by simp [hl])
    have hnone : INDEX_REGEX.exec line = none := by
      cases hm : INDEX_REGEX.exec line with
      | none => rfl
      | some m => simp [INDEX_REGEX.test, hm] at hn
    unfold scan
    simp only [hnone, ih _ hr]
    split <;> rfl

/-- C8: when no normalized line of the text matches `INDEX_REGEX` (as for the
empty text and for text made of white space only), `parseInput` returns no
record and a total of 0. -/
theorem C8_no_match_empty (toLowerCase : JSString → JSString) (text : JSString)
    (h : ∀ l ∈ normalizedLines text, INDEX_REGEX.test l = false) :
    parseInput toLowerCase text = ⟨[], 0⟩ := by
  simp only [parseInput, scan_no_match toLowerCase _ _ h]
  rfl

theorem C8_no_match_empty_witness :
    (∀ l ∈ normalizedLines (utf16 "Lamp 12.5\n \t \r\n7"), INDEX_REGEX.test l = false) ∧
    parseInput toLowerCaseBasic (utf16 "Lamp 12.5\n \t \r\n7") = ⟨[], 0⟩ :=
  ⟨by decide, C8_no_match_empty toLowerCaseBasic (utf16 "Lamp 12.5\n \t \r\n7") (by decide)⟩

theorem captureNumber_desc (next : JSString) (c : Capture) :
    (captureNumber next c).desc = c.desc := by
  unfold captureNumber
  simp only
  split_ifs <;> rfl

theorem numberStep_desc (next : JSString) (c : Capture) :
    (numberStep next c).desc = c.desc := by
  unfold numberStep
  split_ifs
  · exact captureNumber_desc next c
  · rfl

theorem lookAhead_cons (toLowerCase : JSString → JSString) (next : JSString)
    (rest : List JSString) (c : Capture) :
    lookAhead toLowerCase (next :: rest) c =
      if INDEX_REGEX.test next then c
      else if c.desc.isEmpty ∧ ¬ isHeaderLine toLowerCase next ∧ ¬ looksLikeNumber next then
        lookAhead toLowerCase rest { c with desc := next }
      else if (numberStep next c).isFull then numberStep next c
      else lookAhead toLowerCase rest (numberStep next c) := by
  rw [lookAhead]

theorem lookAhead_desc (toLowerCase : JSString → JSString) (rest : List JSString)
    (c : Capture) :
    (lookAhead toLowerCase rest c).desc = c.desc ∨
    ((lookAhead toLowerCase rest c).desc ∈ rest ∧
      isHeaderLine toLowerCase (lookAhead toLowerCase rest c).desc = false ∧
      looksLikeNumber (lookAhead toLowerCase rest c).desc = false ∧
      INDEX_REGEX.test (lookAhead toLowerCase rest c).desc = false) := by
  induction rest generalizing c with
  | nil => exact Or.inl rfl
  | cons next rest ih =>
    rw [lookAhead_cons]
    split_ifs with ht hd hfull
    · exact Or.inl rfl
    · rcases ih { c with desc := next } with h | ⟨h1, h2, h3, h4⟩
      · right
        rw [h]
        refine ⟨by simp, ?_, ?_, ?_⟩
        · simpa using hd.2.1
        · simpa using hd.2.2
        · simpa using ht
      · exact Or.inr ⟨by simp [h1], h2, h3, h4⟩
    · exact Or.inl (numberStep_desc next c)
    · rcases ih (numberStep next c) with h | ⟨h1, h2, h3, h4⟩
      · exact Or.inl (h.trans (numberStep_desc next c))
      · exact Or.inr ⟨by simp [h1], h2, h3, h4⟩

theorem occurrences_desc (toLowerCase : JSString → JSString) (lines : List JSString) :
    ∀ oc ∈ occurrences toLowerCase lines, oc.2.desc ≠ [] →
      oc.2.desc ∈ lines ∧ isHeaderLine toLowerCase oc.2.desc = false ∧
        looksLikeNumber oc.2.desc = false ∧ INDEX_REGEX.test oc.2.desc = false := by
  induction lines with
  | nil => simp [occurrences]
  | cons line rest ih =>
    intro oc hoc hne
    have hrest : oc ∈ occurrences toLowerCase rest →
        oc.2.desc ∈ line :: rest ∧ isHeaderLine toLowerCase oc.2.desc = false ∧
          looksLikeNumber oc.2.desc = false ∧ INDEX_REGEX.test oc.2.desc = false := by
      intro h
      obtain ⟨h1, h2⟩ := ih oc h hne
      exact ⟨by simp [h1], h2⟩
    unfold occurrences at hoc
    by_cases hh : isHeaderLine toLowerCase line = true
    · rw [if_pos hh] at hoc
      exact hrest hoc
    · rw [if_neg hh] at hoc
      cases hm : INDEX_REGEX.exec line with
      | none =>
        rw [hm] at hoc
        exact hrest hoc
      | some index =>
        rw [hm] at hoc
        simp only [List.mem_cons] at hoc
        rcases hoc with hoc | hoc
        · rw [hoc] at hne ⊢
          rcases lookAhead_desc toLowerCase rest Capture.empty with h | ⟨h1, h2⟩
          · exact absurd h hne
          · exact ⟨by simp [h1], h2⟩
        · exact hrest hoc

theorem firstDesc_mem (k : JSString) (ocs : List (JSString × Capture))
    (hne : firstDesc k ocs ≠ []) : ∃ oc ∈ ocs, oc.2.desc = firstDesc k ocs := by
  unfold firstDesc at hne ⊢
  cases hf : List.find? (fun d => !d.isEmpty)
      (List.map (fun oc => oc.2.desc) (List.filter (fun oc => decide (oc.1 = k)) ocs)) with
  | none => simp [hf] at hne
  | some d =>
    have hm := List.mem_of_find?_eq_some hf
    rcases List.mem_map.mp hm with ⟨oc, hoc, hd⟩
    exact ⟨oc, (List.mem_filter.mp hoc).1, by simpa using hd⟩

/-- C7: a non-empty description of a returned record is one of the normalized
lines of the input, and that line is not a header line, is not a bare numeric
line (`looksLikeNumber`) and does not match `INDEX_REGEX`. -/
theorem C7_description_source (toLowerCase : JSString → JSString) (text : JSString)
    (x : Item) (hx : x ∈ (parseInput toLowerCase text).items) (hne : x.desc ≠ []) :
    x.desc ∈ normalizedLines text ∧ isHeaderLine toLowerCase x.desc = false ∧
      looksLikeNumber x.desc = false ∧ INDEX_REGEX.test x.desc = false := by
  have h := mergeInv_scan toLowerCase (normalizedLines text)
  have hd := h.desc_eq x hx
  rw [hd] at hne
  obtain ⟨oc, hoc, hoce⟩ := firstDesc_mem _ _ hne
  rw [hd, ← hoce]
  exact occurrences_desc toLowerCase _ oc hoc (by rw [hoce]; exact hne)

set_option maxRecDepth 100000 in
theorem C7_description_source_witness :
    (⟨utf16 "111.222.33", utf16 "Chair", some (.finite false (5 * 2 ^ 50) 1024), none, 1⟩ :
        Item) ∈
      (parseInput toLowerCaseBasic (utf16 "111.222.33\n5\nCena\nChair")).items ∧
    utf16 "Chair" ≠ [] ∧
    (utf16 "Chair" ∈ normalizedLines (utf16 "111.222.33\n5\nCena\nChair") ∧
      isHeaderLine toLowerCaseBasic (utf16 "Chair") = false ∧
      looksLikeNumber (utf16 "Chair") = false ∧ INDEX_REGEX.test (utf16 "Chair") = false) :=
  ⟨by decide, by decide,
   C7_description_source toLowerCaseBasic (utf16 "111.222.33\n5\nCena\nChair")
     ⟨utf16 "111.222.33", utf16 "Chair", some (.finite false (5 * 2 ^ 50) 1024), none, 1⟩
     (by decide) (by decide)⟩

/-! ## The look-ahead over its window -/

theorem isInteger_isFinite (v : Number) (h : v.isInteger = true) : v.isFinite = true := by
  cases v <;> simp_all [Number.isInteger, Number.isFinite]

theorem windowCapture_nil (toLowerCase : JSString → JSString) (c : Capture) :
    windowCapture toLowerCase c [] = c := by
  cases c with
  | mk d p k =>
    cases d <;> cases p <;> cases k <;>
      simp [windowCapture, windowDesc, windowQtyProducts, windowQtyPacks]

theorem windowCapture_full (toLowerCase : JSString → JSString) (c : Capture)
    (w : List JSString) (h : c.isFull) : windowCapture toLowerCase c w = c := by
  cases c with
  | mk d p k =>
    obtain ⟨h1, h2, h3⟩ := h
    cases p with
    | none => exact absurd rfl h2
    | some pv =>
      cases k with
      | none => exact absurd rfl h3
      | some kv =>
        cases d with
        | nil => simp at h1
        | cons a t => simp [windowCapture]

theorem windowCapture_desc_step (toLowerCase : JSString → JSString) (c : Capture)
    (next : JSString) (w : List JSString) (hne : next ≠ [])
    (hd : c.desc.isEmpty ∧ ¬ isHeaderLine toLowerCase next ∧ ¬ looksLikeNumber next) :
    windowCapture toLowerCase { c with desc := next } w =
      windowCapture toLowerCase c (next :: w) := by
  obtain ⟨h1, h2, h3⟩ := hd
  have h2b : isHeaderLine toLowerCase next = false := by simpa using h2
  have h3b : looksLikeNumber next = false := by simpa using h3
  cases next with
  | nil => exact absurd rfl hne
  | cons a t =>
    simp [windowCapture, windowDesc, windowQtyProducts, windowQtyPacks, h1, h2b, h3b,
      isFiniteNumberLine, isIntegerNumberLine]

theorem windowCapture_number_step (toLowerCase : JSString → JSString) (c : Capture)
    (next : JSString) (w : List JSString)
    (hd : ¬ (c.desc.isEmpty ∧ ¬ isHeaderLine toLowerCase next ∧ ¬ looksLikeNumber next)) :
    windowCapture toLowerCase (numberStep next c) w =
      windowCapture toLowerCase c (next :: w) := by
  by_cases hn : looksLikeNumber next = true
  · by_cases hf : (lineValue next).isFinite = true
    · have hfl : isFiniteNumberLine next = true := by simp [isFiniteNumberLine, hn, hf]
      have hf2 : (parseFloat (replaceFirstComma next)).isFinite = true := hf
      cases hp : c.qtyProducts with
      | none =>
        simp [windowCapture, windowDesc, windowQtyProducts, windowQtyPacks, numberStep,
          captureNumber, hn, hf2, hp, hfl, lineValue]
      | some pv =>
        by_cases hk : c.qtyPacks = none ∧ (lineValue next).isInteger = true
        · have hil : isIntegerNumberLine next = true := by
            simp [isIntegerNumberLine, hn, hk.2]
          have hk2 : (parseFloat (replaceFirstComma next)).isInteger = true := hk.2
          simp [windowCapture, windowDesc, windowQtyProducts, windowQtyPacks, numberStep,
            captureNumber, hn, hf2, hp, hil, hk.1, hk2, lineValue]
        · have hk2 : ¬ (c.qtyPacks = none ∧
              (parseFloat (replaceFirstComma next)).isInteger = true) := hk
          cases hq : c.qtyPacks with
          | some kv =>
            simp [windowCapture, windowDesc, windowQtyProducts, windowQtyPacks, numberStep,
              captureNumber, hn, hf2, hp, hq, lineValue]
          | none =>
            have hni : (lineValue next).isInteger = false := by
              cases hi : (lineValue next).isInteger with
              | false => rfl
              | true => exact absurd ⟨hq, hi⟩ hk
            have hni2 : (parseFloat (replaceFirstComma next)).isInteger = false := hni
            have hil : isIntegerNumberLine next = false := by
              simp [isIntegerNumberLine, hni]
            simp [windowCapture, windowDesc, windowQtyProducts, windowQtyPacks, numberStep,
              captureNumber, hn, hf2, hp, hq, hni2, hil, lineValue]
    · have hf1 : (lineValue next).isFinite = false := by simpa using hf
      have hf2 : (parseFloat (replaceFirstComma next)).isFinite = false := hf1
      have hfl : isFiniteNumberLine next = false := by simp [isFiniteNumberLine, hf1]
      have hil : isIntegerNumberLine next = false := by
        cases hi : (lineValue next).isInteger with
        | false => simp [isIntegerNumberLine, hi]
        | true => rw [isInteger_isFinite _ hi] at hf1; exact absurd hf1 (by simp)
      simp [windowCapture, windowDesc, windowQtyProducts, windowQtyPacks, numberStep,
        captureNumber, hn, hf2, hfl, hil]
  · have hn1 : looksLikeNumber next = false := by simpa using hn
    have hfl : isFiniteNumberLine next = false := by simp [isFiniteNumberLine, hn1]
    have hil : isIntegerNumberLine next = false := by simp [isIntegerNumberLine, hn1]
    have hdesc : c.desc.isEmpty = true → isHeaderLine toLowerCase next = true := by
      intro he
      by_contra hh
      exact hd ⟨he, hh, hn⟩
    cases hde : c.desc.isEmpty with
    | true =>
      simp [windowCapture, windowDesc, windowQtyProducts, windowQtyPacks, numberStep, hn1,
        hfl, hil, hde, hdesc hde]
    | false =>
      simp [windowCapture, windowDesc, windowQtyProducts, windowQtyPacks, numberStep, hn1,
        hfl, hil, hde]

theorem lookAhead_eq_windowCapture (toLowerCase : JSString → JSString)
    (rest : List JSString) (c : Capture) (hne : ∀ l ∈ rest, l ≠ []) :
    lookAhead toLowerCase rest c = windowCapture toLowerCase c (lookAheadWindow rest) := by
  induction rest generalizing c with
  | nil => simp [lookAhead, lookAheadWindow, windowCapture_nil]
  | cons next rest ih =>
    have hn := hne next (by simp)
    have hr : ∀ l ∈ rest, l ≠ [] := fun l hl => hne l (by simp [hl])
    rw [lookAhead_cons]
    split_ifs with ht hd hfull
    · simp [lookAheadWindow, ht, windowCapture_nil]
    · have hw : lookAheadWindow (next :: rest) = next :: lookAheadWindow rest := by
        simp [lookAheadWindow, ht]
      rw [hw, ih _ hr, windowCapture_desc_step toLowerCase c next _ hn hd]
    · have hw : lookAheadWindow (next :: rest) = next :: lookAheadWindow rest := by
        simp [lookAheadWindow, ht]
      rw [hw, ← windowCapture_number_step toLowerCase c next _ hd,
        windowCapture_full _ _ _ hfull]
    · have hw : lookAheadWindow (next :: rest) = next :: lookAheadWindow rest := by
        simp [lookAheadWindow, ht]
      rw [hw, ih _ hr, windowCapture_number_step toLowerCase c next _ hd]

theorem occurrences_append (toLowerCase : JSString → JSString) (pre lines : List JSString) :
    ∃ before, occurrences toLowerCase (pre ++ lines) = before ++ occurrences toLowerCase lines := by
  induction pre with
  | nil => exact ⟨[], rfl⟩
  | cons p pre ih =>
    obtain ⟨before, hb⟩ := ih
    rw [List.cons_append, occurrences]
    split_ifs
    · exact ⟨before, hb⟩
    · cases INDEX_REGEX.exec p with
      | none => exact ⟨before, hb⟩
      | some k => exact ⟨(k, lookAhead toLowerCase (pre ++ lines) Capture.empty) :: before, by simp [hb]⟩

/-- C4 (as the code has it): in a sequence of non-empty lines, take a line that
is not a header line and matches `INDEX_REGEX`, and let the window be the lines
after it up to, and without, the next line that matches `INDEX_REGEX`. The
occurrence of that line captures: as description the first line of the window
that is neither a header line nor a bare numeric line (empty when none); as
`qtyProducts` the value of the first bare numeric line of the window whose
value is finite (null when none); as `qtyPacks` the value of the first bare
numeric line after that one whose value is a whole number (null when none).
Only the window enters the captured fields. -/
theorem C4_window_capture (toLowerCase : JSString → JSString) (pre : List JSString)
    (line : JSString) (rest : List JSString) (index : JSString)
    (hne : ∀ l ∈ rest, l ≠ []) (hh : isHeaderLine toLowerCase line = false)
    (hm : INDEX_REGEX.exec line = some index) :
    lookAhead toLowerCase rest Capture.empty =
      ⟨windowDesc toLowerCase (lookAheadWindow rest), windowQtyProducts (lookAheadWindow rest),
        windowQtyPacks (lookAheadWindow rest)⟩ ∧
    ∃ before, occurrences toLowerCase (pre ++ line :: rest) =
      before ++ (index, lookAhead toLowerCase rest Capture.empty) ::
        occurrences toLowerCase rest := by
  constructor
  · rw [lookAhead_eq_windowCapture toLowerCase rest Capture.empty hne]
    simp [windowCapture, Capture.empty]
  · obtain ⟨before, hb⟩ := occurrences_append toLowerCase pre (line :: rest)
    refine ⟨before, ?_⟩
    rw [hb, occurrences]
    simp [hh, hm]

set_option maxRecDepth 100000 in
theorem C4_window_capture_witness :
    lookAhead toLowerCaseBasic
        [utf16 "Suma", utf16 "2,5", utf16 "Chair", utf16 "1.5", utf16 "3",
         utf16 "444.555.66", utf16 "7"] Capture.empty =
      ⟨windowDesc toLowerCaseBasic (lookAheadWindow
          [utf16 "Suma", utf16 "2,5", utf16 "Chair", utf16 "1.5", utf16 "3",
           utf16 "444.555.66", utf16 "7"]),
        windowQtyProducts (lookAheadWindow
          [utf16 "Suma", utf16 "2,5", utf16 "Chair", utf16 "1.5", utf16 "3",
           utf16 "444.555.66", utf16 "7"]),
        windowQtyPacks (lookAheadWindow
          [utf16 "Suma", utf16 "2,5", utf16 "Chair", utf16 "1.5", utf16 "3",
           utf16 "444.555.66", utf16 "7"])⟩ ∧
    ∃ before, occurrences toLowerCaseBasic
        ([utf16 "Lamp"] ++ utf16 "x 111.222.33" ::
          [utf16 "Suma", utf16 "2,5", utf16 "Chair", utf16 "1.5", utf16 "3",
           utf16 "444.555.66", utf16 "7"]) =
      before ++ (utf16 "111.222.33", lookAhead toLowerCaseBasic
          [utf16 "Suma", utf16 "2,5", utf16 "Chair", utf16 "1.5", utf16 "3",
           utf16 "444.555.66", utf16 "7"] Capture.empty) ::
        occurrences toLowerCaseBasic
          [utf16 "Suma", utf16 "2,5", utf16 "Chair", utf16 "1.5", utf16 "3",
           utf16 "444.555.66", utf16 "7"] :=
  C4_window_capture toLowerCaseBasic [utf16 "Lamp"] (utf16 "x 111.222.33")
    [utf16 "Suma", utf16 "2,5", utf16 "Chair", utf16 "1.5", utf16 "3",
     utf16 "444.555.66", utf16 "7"] (utf16 "111.222.33") (by decide) (by decide) (by decide)

set_option maxRecDepth 100000 in
set_option exponentiation.threshold 4096 in
/-- C4 as written fails: after the line `111.222.33` come a bare numeric line
of 310 digits `9`, whose value is `Infinity`, and the line `5`. The claim makes
`qtyProducts` the value of the first bare numeric line, `Infinity`; the code
drops that line at `Number.isFinite` and captures 5. -/
theorem C4_counterexample :
    normalizedLines (utf16 "111.222.33\n" ++ List.replicate 310 57 ++ utf16 "\n5") =
      [utf16 "111.222.33", List.replicate 310 57, utf16 "5"] ∧
    occurrences toLowerCaseBasic [utf16 "111.222.33", List.replicate 310 57, utf16 "5"] =
      [(utf16 "111.222.33", ⟨[], some (.finite false (5 * 2 ^ 50) 1024), none⟩)] ∧
    Number.toInt? (.finite false (5 * 2 ^ 50) 1024) = some 5 ∧
    claimedQtyProducts (lookAheadWindow [List.replicate 310 57, utf16 "5"]) =
      some (.infinite false) ∧
    (lookAhead toLowerCaseBasic [List.replicate 310 57, utf16 "5"] Capture.empty).qtyProducts ≠
      claimedQtyProducts (lookAheadWindow [List.replicate 310 57, utf16 "5"]) := by
  decide

/-! ## The line normalizer -/

theorem collapseAux_ws (b : Bool) (l : JSString) :
    ∀ c ∈ collapseAux b l, isWhiteSpace c = true → c = 32 := by
  induction l generalizing b with
  | nil => simp [collapseAux]
  | cons a rest ih =>
    intro c hc hw
    unfold collapseAux at hc
    split_ifs at hc with h1 h2
    · exact ih true c hc hw
    · simp only [List.mem_cons] at hc
      rcases hc with hc | hc
      · exact hc
      · exact ih true c hc hw
    · simp only [List.mem_cons] at hc
      rcases hc with hc | hc
      · rw [hc] at hw; exact absurd hw h1
      · exact ih false c hc hw

theorem collapseAux_head (l : JSString) :
    ∀ c, (collapseAux true l).head? = some c → isWhiteSpace c = false := by
  induction l with
  | nil => simp [collapseAux]
  | cons a rest ih =>
    intro c hc
    unfold collapseAux at hc
    split_ifs at hc with h1 h2
    · exact ih c hc
    · exact absurd rfl h2
    · simp only [List.head?_cons, Option.some.injEq] at hc
      rw [← hc]; simpa using h1

theorem collapseAux_chain (b : Bool) (l : JSString) :
    List.Chain' (fun x y => ¬ (x = 32 ∧ y = 32)) (collapseAux b l) := by
  induction l generalizing b with
  | nil => simp [collapseAux]
  | cons a rest ih =>
    unfold collapseAux
    split_ifs with h1 h2
    · exact ih true
    · rw [List.chain'_cons']
      refine ⟨?_, ih true⟩
      intro y hy hxy
      have hn := collapseAux_head rest y (by simpa using hy)
      rw [hxy.2] at hn
      simp [isWhiteSpace] at hn
    · rw [List.chain'_cons']
      refine ⟨?_, ih false⟩
      intro y _ hxy
      rw [hxy.1] at h1
      simp [isWhiteSpace] at h1

theorem trimEnd_append (l : JSString) :
    ∃ t, l = trimEnd l ++ t ∧ ∀ c ∈ t, isWhiteSpace c = true := by
  refine ⟨(l.reverse.takeWhile isWhiteSpace).reverse, ?_, ?_⟩
  · unfold trimEnd
    rw [← List.reverse_append, List.takeWhile_append_dropWhile, List.reverse_reverse]
  · intro c hc
    exact List.mem_takeWhile_imp (List.mem_reverse.mp hc)

theorem trimStart_append (l : JSString) :
    ∃ t, l = t ++ trimStart l ∧ ∀ c ∈ t, isWhiteSpace c = true := by
  refine ⟨l.takeWhile isWhiteSpace, ?_, ?_⟩
  · unfold trimStart
    rw [List.takeWhile_append_dropWhile]
  · intro c hc
    exact List.mem_takeWhile_imp hc

theorem trim_decompose (l : JSString) : ∃ a b, l = a ++ trim l ++ b := by
  obtain ⟨t, ht, _⟩ := trimEnd_append l
  obtain ⟨u, hu, _⟩ := trimStart_append (trimEnd l)
  refine ⟨u, t, ?_⟩
  unfold trim
  rw [← hu, ← ht]

theorem dropWhile_head (p : Nat → Bool) (l : List Nat) :
    ∀ c, (l.dropWhile p).head? = some c → p c = false := by
  induction l with
  | nil => simp
  | cons a rest ih =>
    intro c hc
    rw [List.dropWhile_cons] at hc
    split_ifs at hc with h
    · exact ih c hc
    · simp only [List.head?_cons, Option.some.injEq] at hc
      rw [← hc]; simpa using h

theorem trimEnd_getLast (l : JSString) :
    ∀ c, (trimEnd l).getLast? = some c → isWhiteSpace c = false := by
  intro c hc
  unfold trimEnd at hc
  rw [List.getLast?_reverse] at hc
  exact dropWhile_head _ _ c hc

theorem dropWhile_getLast (p : Nat → Bool) (l : List Nat) (h : l.dropWhile p ≠ []) :
    (l.dropWhile p).getLast? = l.getLast? := by
  have hl : l = l.takeWhile p ++ l.dropWhile p := (List.takeWhile_append_dropWhile p l).symm
  conv_rhs => rw [hl]
  rw [List.getLast?_append_of_ne_nil _ h]

theorem trim_head (l : JSString) :
    ∀ c, (trim l).head? = some c → isWhiteSpace c = false := by
  intro c hc
  exact dropWhile_head _ _ c hc

theorem trim_getLast (l : JSString) :
    ∀ c, (trim l).getLast? = some c → isWhiteSpace c = false := by
  intro c hc
  have hne : (trimEnd l).dropWhile isWhiteSpace ≠ [] := by
    intro h
    have : trim l = [] := h
    rw [this] at hc
    simp at hc
  have h2 : (trim l).getLast? = (trimEnd l).getLast? := dropWhile_getLast _ _ hne
  rw [h2] at hc
  exact trimEnd_getLast l c hc

theorem normalizeLine_props (line : JSString) :
    (∀ c, (normalizeLine line).head? = some c → isWhiteSpace c = false) ∧
    (∀ c, (normalizeLine line).getLast? = some c → isWhiteSpace c = false) ∧
    (∀ c ∈ normalizeLine line, isWhiteSpace c = true → c = 32) ∧
    List.Chain' (fun x y => ¬ (x = 32 ∧ y = 32)) (normalizeLine line) := by
  obtain ⟨a, b, hab⟩ := trim_decompose (collapseWhiteSpace line)
  refine ⟨trim_head _, trim_getLast _, ?_, ?_⟩
  · intro c hc hw
    refine collapseAux_ws false line c ?_ hw
    have : c ∈ collapseWhiteSpace line := by
      rw [hab]; simp [normalizeLine] at hc; simp [hc]
    exact this
  · have hch := collapseAux_chain false line
    have hch2 : List.Chain' (fun x y => ¬ (x = 32 ∧ y = 32))
        (a ++ trim (collapseWhiteSpace line) ++ b) := by
      rw [← hab]; exact hch
    exact hch2.left_of_append.right_of_append

theorem splitLines_ne_nil (text : JSString) : splitLines text ≠ [] := by
  cases text with
  | nil => simp [splitLines]
  | cons c rest =>
    unfold splitLines
    split_ifs
    · simp
    · cases rest with
      | nil => simp
      | cons d rest2 =>
        simp only
        split_ifs
        · simp
        · split <;> simp

/-! ## Both line-break conventions -/

theorem collapseAux_append_ws (c : Nat) (hc : isWhiteSpace c = true) (b : Bool)
    (l : JSString) :
    ∃ t, (t = [] ∨ t = [32]) ∧ collapseAux b (l ++ [c]) = collapseAux b l ++ t := by
  induction l generalizing b with
  | nil =>
    cases b with
    | true => exact ⟨[], Or.inl rfl, by simp [collapseAux, hc]⟩
    | false => exact ⟨[32], Or.inr rfl, by simp [collapseAux, hc]⟩
  | cons a rest ih =>
    by_cases ha : isWhiteSpace a = true
    · obtain ⟨t, ht, he⟩ := ih true
      refine ⟨t, ht, ?_⟩
      cases b with
      | true => simp [collapseAux, ha, he]
      | false => simp [collapseAux, ha, he]
    · obtain ⟨t, ht, he⟩ := ih false
      refine ⟨t, ht, ?_⟩
      simp [collapseAux, ha, he]

theorem trimEnd_append_space (x : JSString) : trimEnd (x ++ [32]) = trimEnd x := by
  have h32 : isWhiteSpace 32 = true := by decide
  simp [trimEnd, List.dropWhile_cons, h32]

theorem normalizeLine_append_cr (l : JSString) : normalizeLine (l ++ [13]) = normalizeLine l := by
  obtain ⟨t, ht, he⟩ := collapseAux_append_ws 13 (by decide) false l
  unfold normalizeLine collapseWhiteSpace trim
  rw [he]
  rcases ht with ht | ht
  · rw [ht, List.append_nil]
  · rw [ht, trimEnd_append_space]

theorem splitLines_lf (rest : JSString) : splitLines (10 :: rest) = [] :: splitLines rest := by
  conv_lhs => unfold splitLines
  simp

theorem splitLines_crlf (rest : JSString) :
    splitLines (13 :: 10 :: rest) = [] :: splitLines rest := by
  conv_lhs => unfold splitLines
  simp

theorem splitLines_other (c : Nat) (rest : JSString) (h10 : c ≠ 10)
    (h13 : c = 13 → rest.head? ≠ some 10) :
    splitLines (c :: rest) = (c :: (splitLines rest).headD []) :: (splitLines rest).tail := by
  cases rest with
  | nil => simp [splitLines, h10]
  | cons d rest2 =>
    have hcd : ¬ (c = 13 ∧ d = 10) := by
      rintro ⟨h1, h2⟩
      exact h13 h1 (by simp [h2])
    conv_lhs => unfold splitLines
    simp only [h10, if_false, hcd]
    cases hs : splitLines (d :: rest2) with
    | nil => exact absurd hs (splitLines_ne_nil _)
    | cons piece pieces => simp

theorem replaceCRLF_crlf (rest : JSString) :
    replaceCRLF (13 :: 10 :: rest) = 10 :: replaceCRLF rest := by
  rw [replaceCRLF]; simp

theorem replaceCRLF_other (c : Nat) (rest : JSString)
    (h13 : c = 13 → rest.head? ≠ some 10) :
    replaceCRLF (c :: rest) = c :: replaceCRLF rest := by
  cases rest with
  | nil => simp [replaceCRLF]
  | cons d rest2 =>
    have hcd : ¬ (c = 13 ∧ d = 10) := by
      rintro ⟨h1, h2⟩
      exact h13 h1 (by simp [h2])
    rw [replaceCRLF]
    simp only [hcd, if_false]

theorem replaceCRLF_head (rest : JSString) (h : (replaceCRLF rest).head? = some 10) :
    rest.head? = some 10 ∨ ∃ r, rest = 13 :: 10 :: r := by
  cases rest with
  | nil => simp [replaceCRLF] at h
  | cons c rest1 =>
    by_cases hc : c = 13 ∧ rest1.head? = some 10
    · cases rest1 with
      | nil => simp at hc
      | cons d r =>
        right
        refine ⟨r, ?_⟩
        obtain ⟨h1, h2⟩ := hc
        simp only [List.head?_cons, Option.some.injEq] at h2
        rw [h1, h2]
    · have h13 : c = 13 → rest1.head? ≠ some 10 := fun h1 h2 => hc ⟨h1, h2⟩
      rw [replaceCRLF_other c rest1 h13] at h
      left
      simpa using h

theorem splitLines_replaceCRLF_aux (n : Nat) :
    ∀ text : JSString, text.length ≤ n →
      List.Forall₂ (fun a b => a = b ∨ a = b ++ [13]) (splitLines text)
        (splitLines (replaceCRLF text)) := by
  induction n with
  | zero =>
    intro text hlen
    have : text = [] := List.length_eq_zero.mp (Nat.le_zero.mp hlen)
    subst this
    simp [splitLines, replaceCRLF]
  | succ n ih =>
    intro text hlen
    cases text with
    | nil => simp [splitLines, replaceCRLF]
    | cons c rest =>
      have hrest : rest.length ≤ n := by simpa using hlen
      by_cases h10 : c = 10
      · subst h10
        rw [replaceCRLF_other 10 rest (by simp), splitLines_lf, splitLines_lf]
        exact List.Forall₂.cons (Or.inl rfl) (ih rest hrest)
      · by_cases hcr : c = 13 ∧ rest.head? = some 10
        · cases rest with
          | nil => simp at hcr
          | cons d r =>
            obtain ⟨h1, h2⟩ := hcr
            simp only [List.head?_cons, Option.some.injEq] at h2
            subst h1 h2
            rw [replaceCRLF_crlf, splitLines_crlf, splitLines_lf]
            refine List.Forall₂.cons (Or.inl rfl) (ih r ?_)
            simp only [List.length_cons] at hrest
            omega
        · have h13 : c = 13 → rest.head? ≠ some 10 := fun h1 h2 => hcr ⟨h1, h2⟩
          rw [replaceCRLF_other c rest h13, splitLines_other c rest h10 h13]
          by_cases hnew : c = 13 ∧ (replaceCRLF rest).head? = some 10
          · obtain ⟨hc, hh⟩ := hnew
            rcases replaceCRLF_head rest hh with h | ⟨r, hr⟩
            · exact absurd h (h13 hc)
            · subst hc hr
              rw [replaceCRLF_crlf, splitLines_crlf, splitLines_crlf]
              simp only [List.headD_cons, List.tail_cons]
              refine List.Forall₂.cons (Or.inr rfl) (ih r ?_)
              simp only [List.length_cons] at hrest
              omega
          · have h13b : c = 13 → (replaceCRLF rest).head? ≠ some 10 :=
              fun h1 h2 => hnew ⟨h1, h2⟩
            rw [splitLines_other c (replaceCRLF rest) h10 h13b]
            have hrel := ih rest hrest
            cases hs : splitLines rest with
            | nil => exact absurd hs (splitLines_ne_nil _)
            | cons p ps =>
              cases hs2 : splitLines (replaceCRLF rest) with
              | nil => exact absurd hs2 (splitLines_ne_nil _)
              | cons q qs =>
                rw [hs, hs2] at hrel
                cases hrel with
                | cons hpq htl =>
                  simp only [List.headD_cons, List.tail_cons]
                  refine List.Forall₂.cons ?_ htl
                  rcases hpq with hpq | hpq
                  · exact Or.inl (by rw [hpq])
                  · exact Or.inr (by rw [hpq]; rfl)

theorem map_normalizeLine_of_rel (xs ys : List JSString)
    (h : List.Forall₂ (fun a b => a = b ∨ a = b ++ [13]) xs ys) :
    xs.map normalizeLine = ys.map normalizeLine := by
  induction h with
  | nil => rfl
  | cons hab _ ih =>
    simp only [List.map_cons, ih]
    rcases hab with hab | hab
    · rw [hab]
    · rw [hab, normalizeLine_append_cr]

theorem intercalate_cons_cons (sep a b : List Nat) (l : List (List Nat)) :
    List.intercalate sep (a :: b :: l) = a ++ sep ++ List.intercalate sep (b :: l) := by
  simp [List.intercalate, List.intersperse]

theorem intercalate_cons_of_ne_nil (sep a : List Nat) (l : List (List Nat)) (h : l ≠ []) :
    List.intercalate sep (a :: l) = a ++ sep ++ List.intercalate sep l := by
  cases l with
  | nil => exact absurd rfl h
  | cons b t => exact intercalate_cons_cons sep a b t

theorem intercalate_cons_head (sep : List Nat) (c : Nat) (l : List (List Nat)) (h : l ≠ []) :
    List.intercalate sep ((c :: l.headD []) :: l.tail) = c :: List.intercalate sep l := by
  cases l with
  | nil => exact absurd rfl h
  | cons a t =>
    cases t with
    | nil => simp [List.intercalate, List.intersperse]
    | cons b t2 => simp [intercalate_cons_cons]

theorem splitLines_join_aux (n : Nat) :
    ∀ text : JSString, text.length ≤ n →
      List.intercalate [10] (splitLines text) = replaceCRLF text := by
  induction n with
  | zero =>
    intro text hlen
    have : text = [] := List.length_eq_zero.mp (Nat.le_zero.mp hlen)
    subst this
    simp [splitLines, replaceCRLF, List.intercalate, List.intersperse]
  | succ n ih =>
    intro text hlen
    cases text with
    | nil => simp [splitLines, replaceCRLF, List.intercalate, List.intersperse]
    | cons c rest =>
      have hrest : rest.length ≤ n := by simpa using hlen
      by_cases h10 : c = 10
      · subst h10
        rw [replaceCRLF_other 10 rest (by simp), splitLines_lf,
          intercalate_cons_of_ne_nil _ _ _ (splitLines_ne_nil rest), ih rest hrest]
        simp
      · by_cases hcr : c = 13 ∧ rest.head? = some 10
        · cases rest with
          | nil => simp at hcr
          | cons d r =>
            obtain ⟨h1, h2⟩ := hcr
            simp only [List.head?_cons, Option.some.injEq] at h2
            subst h1 h2
            have hr : r.length ≤ n := by
              simp only [List.length_cons] at hrest
              omega
            rw [replaceCRLF_crlf, splitLines_crlf,
              intercalate_cons_of_ne_nil _ _ _ (splitLines_ne_nil r), ih r hr]
            simp
        · have h13 : c = 13 → rest.head? ≠ some 10 := fun h1 h2 => hcr ⟨h1, h2⟩
          rw [replaceCRLF_other c rest h13, splitLines_other c rest h10 h13,
            intercalate_cons_head _ _ _ (splitLines_ne_nil rest), ih rest hrest]

/-- C9: every line the normalizer produces is non-empty, has no white space
at its start or end, has the single space as its only white-space code unit
and has no two adjacent spaces; the lines are the source lines, each
normalized, with the empty ones removed and the order kept, where the
source lines, joined by `\n`, are the text up to the line-break convention. -/
theorem C9_normalized_lines (text : JSString) :
    (∀ l ∈ normalizedLines text,
      l ≠ [] ∧
      (∀ c, l.head? = some c → isWhiteSpace c = false) ∧
      (∀ c, l.getLast? = some c → isWhiteSpace c = false) ∧
      (∀ c ∈ l, isWhiteSpace c = true → c = 32) ∧
      List.Chain' (fun x y => ¬ (x = 32 ∧ y = 32)) l) ∧
    normalizedLines text =
      ((splitLines text).map normalizeLine).filter (fun l => decide (l ≠ [])) ∧
    List.Sublist (normalizedLines text) ((splitLines text).map normalizeLine) ∧
    List.intercalate [10] (splitLines text) = replaceCRLF text := by
  refine ⟨?_, ?_, ?_, splitLines_join_aux text.length text le_rfl⟩
  · intro l hl
    simp only [normalizedLines, List.mem_filter, List.mem_map] at hl
    obtain ⟨⟨src, _, hsrc⟩, hlen⟩ := hl
    refine ⟨?_, ?_⟩
    · intro h
      rw [h] at hlen
      simp at hlen
    · rw [← hsrc]
      exact normalizeLine_props src
  · simp only [normalizedLines]
    congr 1
    funext l
    cases l <;> simp
  · exact List.filter_sublist _

/-- C10: replacing every two-character line break `\r\n` of a text by `\n`
leaves the normalized lines unchanged, and with them the records and the
total that `parseInput` returns. -/
theorem C10_line_breaks (toLowerCase : JSString → JSString) (text : JSString) :
    normalizedLines (replaceCRLF text) = normalizedLines text ∧
    parseInput toLowerCase (replaceCRLF text) = parseInput toLowerCase text := by
  have h : normalizedLines (replaceCRLF text) = normalizedLines text := by
    unfold normalizedLines
    rw [map_normalizeLine_of_rel _ _ (splitLines_replaceCRLF_aux text.length text le_rfl)]
  exact ⟨h, by simp only [parseInput, h]⟩

/-! ## The two copies of the parser -/

theorem appJs_matchAt (before : Option Nat) (s : JSString) :
    AppJs.INDEX_REGEX.matchAt before s = INDEX_REGEX.matchAt before s := rfl

theorem appJs_execFrom (before : Option Nat) (s : JSString) :
    AppJs.INDEX_REGEX.execFrom before s = INDEX_REGEX.execFrom before s := by
  induction s generalizing before with
  | nil => rfl
  | cons c rest ih =>
    rw [AppJs.INDEX_REGEX.execFrom, INDEX_REGEX.execFrom, appJs_matchAt, ih]

theorem appJs_exec (line : JSString) : AppJs.INDEX_REGEX.exec line = INDEX_REGEX.exec line :=
  appJs_execFrom none line

theorem appJs_test (line : JSString) : AppJs.INDEX_REGEX.test line = INDEX_REGEX.test line := by
  rw [AppJs.INDEX_REGEX.test, INDEX_REGEX.test, appJs_exec]

theorem appJs_isHeaderLine (toLowerCase : JSString → JSString) (line : JSString) :
    AppJs.isHeaderLine toLowerCase line = isHeaderLine toLowerCase line := rfl

theorem appJs_looksLikeNumber (line : JSString) :
    AppJs.looksLikeNumber line = looksLikeNumber line := rfl

theorem appJs_numberStep (next : JSString) (c : Capture) :
    AppJs.numberStep next c = numberStep next c := rfl

theorem appJs_lookAhead (toLowerCase : JSString → JSString) (rest : List JSString)
    (c : Capture) : AppJs.lookAhead toLowerCase rest c = lookAhead toLowerCase rest c := by
  induction rest generalizing c with
  | nil => rfl
  | cons next rest ih =>
    rw [AppJs.lookAhead, lookAhead, appJs_test, appJs_isHeaderLine, appJs_looksLikeNumber,
      appJs_numberStep]
    simp only [ih]

theorem appJs_mapUpdate (key : JSString) (c : Capture) (m : List Item) :
    AppJs.mapUpdate key c m = mapUpdate key c m := by
  induction m with
  | nil => rfl
  | cons item items ih =>
    rw [AppJs.mapUpdate, mapUpdate, ih]
    rfl

theorem appJs_mergeStep (st : ScanState) (index : JSString) (c : Capture) :
    AppJs.mergeStep st index c = mergeStep st index c := by
  simp only [AppJs.mergeStep, mergeStep, appJs_mapUpdate]
  rfl

theorem appJs_scan (toLowerCase : JSString → JSString) (lines : List JSString)
    (st : ScanState) : AppJs.scan toLowerCase lines st = scan toLowerCase lines st := by
  induction lines generalizing st with
  | nil => rfl
  | cons line rest ih =>
    rw [AppJs.scan, scan, appJs_isHeaderLine, appJs_exec]
    simp only [ih, appJs_lookAhead, appJs_mergeStep]

theorem appJs_normalizedLines (text : JSString) :
    AppJs.normalizedLines text = normalizedLines text := rfl

theorem appJs_parseInput (toLowerCase : JSString → JSString) (text : JSString) :
    (AppJs.parseInput toLowerCase text).items = (parseInput toLowerCase text).items ∧
    (AppJs.parseInput toLowerCase text).found =
      (scan toLowerCase (normalizedLines text) ⟨[], []⟩).found := by
  simp only [AppJs.parseInput, parseInput, appJs_scan, appJs_normalizedLines]
  trivial

/-! ## Order of the records -/

theorem mem_keepFirst (l : List JSString) (k : JSString) : k ∈ keepFirst l ↔ k ∈ l := by
  induction l with
  | nil => simp [keepFirst]
  | cons a l ih =>
    simp only [keepFirst, List.mem_cons, List.mem_filter, ih]
    constructor
    · rintro (h | ⟨h, _⟩)
      · exact Or.inl h
      · exact Or.inr h
    · rintro (h | h)
      · exact Or.inl h
      · by_cases hka : k = a
        · exact Or.inl hka
        · exact Or.inr ⟨h, by simpa using hka⟩

theorem keepFirst_append_singleton (l : List JSString) (k : JSString) :
    keepFirst (l ++ [k]) = if k ∈ l then keepFirst l else keepFirst l ++ [k] := by
  induction l with
  | nil => simp [keepFirst]
  | cons a l ih =>
    rw [List.cons_append, keepFirst, keepFirst, ih]
    by_cases hkl : k ∈ l
    · simp [hkl]
    · by_cases hka : k = a
      · subst hka
        simp [hkl, List.filter_append]
      · simp [hkl, hka, List.filter_append]

theorem mergeStep_keys (st : ScanState) (k : JSString) (c : Capture) :
    (mergeStep st k c).indexMap.map Item.index =
      if k ∈ st.indexMap.map Item.index then st.indexMap.map Item.index
      else st.indexMap.map Item.index ++ [k] := by
  by_cases hk : mapHas st.indexMap k = true
  · have hmem := (mapHas_iff _ _).mp hk
    simp only [mergeStep, hk, if_true, mapUpdate_map_index, hmem]
  · have hnot : k ∉ st.indexMap.map Item.index := fun hm => hk ((mapHas_iff _ _).mpr hm)
    simp only [mergeStep, hk, if_false, hnot]
    simp

theorem mergeAll_keys (done : List JSString) (ocs : List (JSString × Capture))
    (st : ScanState) (h : st.indexMap.map Item.index = keepFirst done) :
    (mergeAll ocs st).indexMap.map Item.index = keepFirst (done ++ ocs.map Prod.fst) := by
  induction ocs generalizing done st with
  | nil => simpa [mergeAll] using h
  | cons oc rest ih =>
    have hstep : (mergeStep st oc.1 oc.2).indexMap.map Item.index = keepFirst (done ++ [oc.1]) := by
      rw [mergeStep_keys, keepFirst_append_singleton, h]
      simp only [mem_keepFirst]
    have h2 := ih (done ++ [oc.1]) (mergeStep st oc.1 oc.2) hstep
    simpa [mergeAll] using h2

theorem scan_keys (toLowerCase : JSString → JSString) (lines : List JSString) :
    (scan toLowerCase lines ⟨[], []⟩).indexMap.map Item.index =
      keepFirst (scan toLowerCase lines ⟨[], []⟩).found := by
  rw [(mergeInv_scan toLowerCase lines).found_eq, scan_eq_mergeAll]
  simpa using mergeAll_keys [] (occurrences toLowerCase lines) ⟨[], []⟩ rfl

/-- C11: the records come in order of first occurrence: in both copies of the
parser the list of record indices is the list `found` of all matched
occurrences with every later duplicate removed. -/
theorem C11_first_occurrence_order (toLowerCase : JSString → JSString) (text : JSString) :
    (AppJs.parseInput toLowerCase text).items.map Item.index =
      keepFirst (AppJs.parseInput toLowerCase text).found ∧
    (parseInput toLowerCase text).items.map Item.index =
      keepFirst (scan toLowerCase (normalizedLines text) ⟨[], []⟩).found ∧
    (scan toLowerCase (normalizedLines text) ⟨[], []⟩).found =
      indexCodes toLowerCase (normalizedLines text) := by
  have h := scan_keys toLowerCase (normalizedLines text)
  obtain ⟨h1, h2⟩ := appJs_parseInput toLowerCase text
  refine ⟨?_, h, ?_⟩
  · rw [h1, h2]
    exact h
  · rw [(mergeInv_scan toLowerCase _).found_eq, occurrences_map_fst]

/-! ## Quantities of an occurrence -/

theorem captureNumber_packs (next : JSString) (c : Capture)
    (h : (∀ v, c.qtyPacks = some v → v.isInteger = true) ∧
      (c.qtyPacks ≠ none → c.qtyProducts ≠ none)) :
    (∀ v, (captureNumber next c).qtyPacks = some v → v.isInteger = true) ∧
      ((captureNumber next c).qtyPacks ≠ none → (captureNumber next c).qtyProducts ≠ none) := by
  obtain ⟨h1, h2⟩ := h
  unfold captureNumber
  simp only
  split_ifs with hf hp hk
  · refine ⟨h1, ?_⟩
    intro _
    simp
  · refine ⟨?_, ?_⟩
    · intro v hv
      simp only [Option.some.injEq] at hv
      rw [← hv]
      exact hk.2
    · intro _
      exact hp
  · exact ⟨h1, h2⟩
  · exact ⟨h1, h2⟩

theorem numberStep_packs (next : JSString) (c : Capture)
    (h : (∀ v, c.qtyPacks = some v → v.isInteger = true) ∧
      (c.qtyPacks ≠ none → c.qtyProducts ≠ none)) :
    (∀ v, (numberStep next c).qtyPacks = some v → v.isInteger = true) ∧
      ((numberStep next c).qtyPacks ≠ none → (numberStep next c).qtyProducts ≠ none) := by
  unfold numberStep
  split_ifs
  · exact captureNumber_packs next c h
  · exact h

theorem lookAhead_packs (toLowerCase : JSString → JSString) (rest : List JSString)
    (c : Capture)
    (h : (∀ v, c.qtyPacks = some v → v.isInteger = true) ∧
      (c.qtyPacks ≠ none → c.qtyProducts ≠ none)) :
    (∀ v, (lookAhead toLowerCase rest c).qtyPacks = some v → v.isInteger = true) ∧
      ((lookAhead toLowerCase rest c).qtyPacks ≠ none →
        (lookAhead toLowerCase rest c).qtyProducts ≠ none) := by
  induction rest generalizing c with
  | nil => exact h
  | cons next rest ih =>
    rw [lookAhead_cons]
    split_ifs with ht hd hfull
    · exact h
    · exact ih { c with desc := next } h
    · exact numberStep_packs next c h
    · exact ih (numberStep next c) (numberStep_packs next c h)

theorem occurrences_packs (toLowerCase : JSString → JSString) (lines : List JSString) :
    ∀ oc ∈ occurrences toLowerCase lines,
      (∀ v, oc.2.qtyPacks = some v → v.isInteger = true) ∧
        (oc.2.qtyPacks ≠ none → oc.2.qtyProducts ≠ none) := by
  induction lines with
  | nil => simp [occurrences]
  | cons line rest ih =>
    intro oc hoc
    unfold occurrences at hoc
    by_cases hh : isHeaderLine toLowerCase line = true
    · rw [if_pos hh] at hoc
      exact ih oc hoc
    · rw [if_neg hh] at hoc
      cases hm : INDEX_REGEX.exec line with
      | none =>
        rw [hm] at hoc
        exact ih oc hoc
      | some index =>
        rw [hm] at hoc
        simp only [List.mem_cons] at hoc
        rcases hoc with hoc | hoc
        · rw [hoc]
          exact lookAhead_packs toLowerCase rest Capture.empty
            ⟨by simp [Capture.empty], by simp [Capture.empty]⟩
        · exact ih oc hoc

theorem firstQtyPacks_mem (k : JSString) (ocs : List (JSString × Capture)) (v : Number)
    (h : firstQtyPacks k ocs = some v) :
    ∃ oc ∈ ocs, oc.1 = k ∧ oc.2.qtyPacks = some v := by
  unfold firstQtyPacks at h
  obtain ⟨oc, hoc, hv⟩ := List.exists_of_findSome?_eq_some h
  have hf := List.mem_filter.mp hoc
  exact ⟨oc, hf.1, by simpa using hf.2, hv⟩

theorem isInteger_toInt (v : Number) (h : v.isInteger = true) : ∃ z : Int, v.toInt? = some z := by
  cases v with
  | finite neg m eb =>
    simp only [Number.isInteger, Bool.or_eq_true, decide_eq_true_eq, beq_iff_eq] at h
    by_cases h1 : 1074 ≤ eb
    · exact ⟨_, by simp only [Number.toInt?]; rw [if_pos h1]⟩
    · have h2 : m % 2 ^ (1074 - eb) = 0 := by
        rcases h with h | h
        · exact absurd h h1
        · exact h
      exact ⟨_, by simp only [Number.toInt?]; rw [if_neg h1, if_pos h2]⟩
  | infinite neg => simp [Number.isInteger] at h
  | nan => simp [Number.isInteger] at h

/-- C12: in every record returned by `parseInput`, `qtyPacks` is null or a
whole number: it passes `Number.isInteger` and stands for an integer. -/
theorem C12_packs_whole (toLowerCase : JSString → JSString) (text : JSString) (x : Item)
    (hx : x ∈ (parseInput toLowerCase text).items) :
    x.qtyPacks = none ∨
      ∃ v, x.qtyPacks = some v ∧ v.isInteger = true ∧ ∃ z : Int, v.toInt? = some z := by
  have h := mergeInv_scan toLowerCase (normalizedLines text)
  cases hq : x.qtyPacks with
  | none => exact Or.inl rfl
  | some v =>
    right
    have hf : firstQtyPacks x.index (occurrences toLowerCase (normalizedLines text)) = some v := by
      rw [← h.qtyPacks_eq x hx, hq]
    obtain ⟨oc, hoc, _, hv⟩ := firstQtyPacks_mem _ _ v hf
    have hi := (occurrences_packs toLowerCase _ oc hoc).1 v hv
    exact ⟨v, rfl, hi, isInteger_toInt v hi⟩

set_option maxRecDepth 100000 in
theorem C12_packs_whole_witness :
    (⟨utf16 "111.222.33", [], some (.finite false (5 * 2 ^ 50) 1024),
        some (.finite false (7 * 2 ^ 50) 1024), 1⟩ : Item) ∈
      (parseInput toLowerCaseBasic (utf16 "111.222.33\n5\n2,5\n7")).items ∧
    ((some (Number.finite false (7 * 2 ^ 50) 1024) : Option Number) = none ∨
      ∃ v, some (Number.finite false (7 * 2 ^ 50) 1024) = some v ∧ v.isInteger = true ∧
        ∃ z : Int, v.toInt? = some z) :=
  ⟨by decide,
   C12_packs_whole toLowerCaseBasic (utf16 "111.222.33\n5\n2,5\n7")
     ⟨utf16 "111.222.33", [], some (.finite false (5 * 2 ^ 50) 1024),
       some (.finite false (7 * 2 ^ 50) 1024), 1⟩ (by decide)⟩

/-- C20: in every record returned by `parseInput`, whether built from one
occurrence or merged from several, a `qtyPacks` that is present comes with a
`qtyProducts` that is present. -/
theorem C20_packs_needs_products (toLowerCase : JSString → JSString) (text : JSString)
    (x : Item) (hx : x ∈ (parseInput toLowerCase text).items) (hp : x.qtyPacks ≠ none) :
    x.qtyProducts ≠ none := by
  have h := mergeInv_scan toLowerCase (normalizedLines text)
  cases hq : x.qtyPacks with
  | none => exact absurd hq hp
  | some v =>
    have hf : firstQtyPacks x.index (occurrences toLowerCase (normalizedLines text)) = some v := by
      rw [← h.qtyPacks_eq x hx, hq]
    obtain ⟨oc, hoc, hk, hv⟩ := firstQtyPacks_mem _ _ v hf
    have hprod := (occurrences_packs toLowerCase _ oc hoc).2 (by rw [hv]; simp)
    rw [h.qtyProducts_eq x hx]
    intro hnone
    unfold firstQtyProducts at hnone
    rw [List.findSome?_eq_none_iff] at hnone
    exact hprod (hnone oc (List.mem_filter.mpr ⟨hoc, by simpa using hk⟩))

set_option maxRecDepth 100000 in
theorem C20_packs_needs_products_witness :
    (⟨utf16 "111.222.33", [], some (.finite false (5 * 2 ^ 50) 1024),
        some (.finite false (7 * 2 ^ 50) 1024), 2⟩ : Item) ∈
      (parseInput toLowerCaseBasic (utf16 "111.222.33\n111.222.33\n5\n2,5\n7")).items ∧
    (some (Number.finite false (7 * 2 ^ 50) 1024) : Option Number) ≠ none ∧
    (some (Number.finite false (5 * 2 ^ 50) 1024) : Option Number) ≠ none :=
  ⟨by decide, by decide,
   C20_packs_needs_products toLowerCaseBasic (utf16 "111.222.33\n111.222.33\n5\n2,5\n7")
     ⟨utf16 "111.222.33", [], some (.finite false (5 * 2 ^ 50) 1024),
       some (.finite false (7 * 2 ^ 50) 1024), 2⟩ (by decide) (by decide)⟩

/-- C17: the two copies of the parser compute the same thing: `parseInput` of
`src/app.js` and `parseInput` of `src/src/App.jsx` return the same record
list, and `totalFound` of the second is the length of `found` of the first. -/
theorem C17_copies_agree (toLowerCase : JSString → JSString) (text : JSString) :
    (AppJs.parseInput toLowerCase text).items = (parseInput toLowerCase text).items ∧
    (parseInput toLowerCase text).totalFound =
      (AppJs.parseInput toLowerCase text).found.length := by
  obtain ⟨h1, h2⟩ := appJs_parseInput toLowerCase text
  refine ⟨h1, ?_⟩
  rw [h2]
  rfl

/-! ## What `INDEX_REGEX` matches -/

theorem isDigit_isWordChar (d : Nat) (h : isDigit d = true) : isWordChar d = true := by
  simp only [isDigit, Bool.and_eq_true, decide_eq_true_eq] at h
  simp [isWordChar, h.1, h.2]

theorem matchAt_some (before : Option Nat) (s m : JSString)
    (h : INDEX_REGEX.matchAt before s = some m) :
    ∃ post, s = m ++ post ∧ isIndexCode m = true ∧ isWordAt before = false ∧
      isWordAt post.head? = false := by
  unfold INDEX_REGEX.matchAt at h
  split at h
  · rename_i d1 d2 d3 p1 d4 d5 d6 p2 d7 d8 rest
    split_ifs at h with hc
    simp only [Option.some.injEq] at h
    simp only [Bool.and_eq_true, beq_iff_eq] at hc
    obtain ⟨⟨⟨⟨⟨⟨⟨⟨⟨⟨⟨hb1, h1⟩, h2⟩, h3⟩, hp1⟩, h4⟩, h5⟩, h6⟩, hp2⟩, h7⟩, h8⟩, hb2⟩ := hc
    refine ⟨rest, by rw [← h]; rfl, ?_, ?_, ?_⟩
    · rw [← h]
      simp [isIndexCode, h1, h2, h3, h4, h5, h6, h7, h8, hp1, hp2]
    · have hw : isWordAt (some d1) = true := isDigit_isWordChar d1 h1
      simp only [wordBoundary, hw] at hb1
      cases hx : isWordAt before with
      | false => rfl
      | true => rw [hx] at hb1; simp at hb1
    · have hw : isWordAt (some d8) = true := isDigit_isWordChar d8 h8
      simp only [wordBoundary, hw] at hb2
      cases hx : isWordAt rest.head? with
      | false => rfl
      | true => rw [hx] at hb2; simp at hb2
  · simp at h

theorem matchAt_of_shape (before : Option Nat) (m post : JSString)
    (hm : isIndexCode m = true) (hb : isWordAt before = false)
    (ha : isWordAt post.head? = false) :
    INDEX_REGEX.matchAt before (m ++ post) = some m := by
  unfold isIndexCode at hm
  split at hm
  · rename_i d1 d2 d3 p1 d4 d5 d6 p2 d7 d8
    simp only [Bool.and_eq_true, beq_iff_eq] at hm
    obtain ⟨⟨⟨⟨⟨⟨⟨⟨⟨h1, h2⟩, h3⟩, hp1⟩, h4⟩, h5⟩, h6⟩, hp2⟩, h7⟩, h8⟩ := hm
    have hw1 : isWordAt (some d1) = true := isDigit_isWordChar d1 h1
    have hw8 : isWordAt (some d8) = true := isDigit_isWordChar d8 h8
    simp [INDEX_REGEX.matchAt, wordBoundary, hw1, hw8, hb, ha, h1, h2, h3, h4, h5,
      h6, h7, h8, hp1, hp2]
  · simp at hm
theorem isIndexCode_length (m : JSString) (h : isIndexCode m = true) : m.length = 10 := by
  unfold isIndexCode at h
  split at h
  · rfl
  · simp at h

theorem containsIndexShape_cons (c : Nat) (rest : JSString) :
    containsIndexShape (c :: rest) =
      (isIndexCode ((c :: rest).take 10) || containsIndexShape rest) := rfl

theorem containsIndexShape_of (pre code post : JSString) (h : isIndexCode code = true) :
    containsIndexShape (pre ++ code ++ post) = true := by
  induction pre with
  | nil =>
    have hl := isIndexCode_length code h
    cases hc : code with
    | nil => rw [hc] at hl; simp at hl
    | cons c rest =>
      have htake : (c :: (rest ++ post)).take 10 = c :: rest := by
        rw [← List.cons_append, ← hc, List.take_append_of_le_length (by omega),
          List.take_of_length_le (by omega)]
      rw [List.nil_append, List.cons_append, containsIndexShape_cons, htake, ← hc, h]
      rfl
  | cons a pre ih =>
    rw [List.cons_append, List.cons_append, containsIndexShape_cons, ih]
    simp

theorem getLast?_cons_or (c : Nat) (pre : List Nat) (b : Option Nat) :
    ((c :: pre).getLast?).or b = (pre.getLast?).or (some c) := by
  cases pre with
  | nil => simp
  | cons a t =>
    rw [List.getLast?_cons_cons]
    cases h : (a :: t).getLast? with
    | none => simp at h
    | some x => simp

theorem execFrom_some (before : Option Nat) (s m : JSString)
    (h : INDEX_REGEX.execFrom before s = some m) :
    ∃ pre post, s = pre ++ m ++ post ∧ isIndexCode m = true ∧
      isWordAt ((pre.getLast?).or before) = false ∧ isWordAt post.head? = false := by
  induction s generalizing before with
  | nil => simp [INDEX_REGEX.execFrom] at h
  | cons c rest ih =>
    rw [INDEX_REGEX.execFrom] at h
    cases hm : INDEX_REGEX.matchAt before (c :: rest) with
    | some m2 =>
      rw [hm] at h
      simp only [Option.some.injEq] at h
      subst h
      obtain ⟨post, h1, h2, h3, h4⟩ := matchAt_some before (c :: rest) m2 hm
      exact ⟨[], post, by simpa using h1, h2, by simpa using h3, h4⟩
    | none =>
      rw [hm] at h
      obtain ⟨pre, post, h1, h2, h3, h4⟩ := ih (some c) h
      refine ⟨c :: pre, post, by simp [h1], h2, ?_, h4⟩
      rw [getLast?_cons_or]
      exact h3

theorem execFrom_isSome (before : Option Nat) (pre m post : JSString)
    (hm : isIndexCode m = true) (hb : isWordAt ((pre.getLast?).or before) = false)
    (ha : isWordAt post.head? = false) :
    (INDEX_REGEX.execFrom before (pre ++ m ++ post)).isSome = true := by
  induction pre generalizing before with
  | nil =>
    have hmatch := matchAt_of_shape before m post hm (by simpa using hb) ha
    cases hs : m ++ post with
    | nil =>
      rw [hs] at hmatch
      simp [INDEX_REGEX.matchAt] at hmatch
    | cons c rest =>
      rw [hs] at hmatch
      simp only [List.nil_append, hs]
      rw [INDEX_REGEX.execFrom, hmatch]
      rfl
  | cons c pre ih =>
    rw [getLast?_cons_or] at hb
    have hrec := ih (some c) hb
    simp only [List.cons_append, List.append_assoc] at hrec ⊢
    rw [INDEX_REGEX.execFrom]
    cases INDEX_REGEX.matchAt before (c :: (pre ++ (m ++ post))) with
    | some m2 => rfl
    | none => exact hrec

/-- C14 (as the code has it): a line matches `INDEX_REGEX` exactly when it
contains a substring of three digits, `.`, three digits, `.`, two digits that
has no word character (letter, digit or `_`) right before it and none right
after it; the extracted code is such a substring; and a line that matches
contains a substring of that shape. -/
theorem C14_index_bearing (line : JSString) :
    (INDEX_REGEX.test line = true ↔
      ∃ pre code post, line = pre ++ code ++ post ∧ isIndexCode code = true ∧
        isWordAt pre.getLast? = false ∧ isWordAt post.head? = false) ∧
    (∀ code, INDEX_REGEX.exec line = some code →
      ∃ pre post, line = pre ++ code ++ post ∧ isIndexCode code = true ∧
        isWordAt pre.getLast? = false ∧ isWordAt post.head? = false) ∧
    (INDEX_REGEX.test line = true → containsIndexShape line = true) := by
  have hexec : ∀ code, INDEX_REGEX.exec line = some code →
      ∃ pre post, line = pre ++ code ++ post ∧ isIndexCode code = true ∧
        isWordAt pre.getLast? = false ∧ isWordAt post.head? = false := by
    intro code h
    obtain ⟨pre, post, h1, h2, h3, h4⟩ := execFrom_some none line code h
    exact ⟨pre, post, h1, h2, by simpa using h3, h4⟩
  have htest : INDEX_REGEX.test line = true →
      ∃ pre code post, line = pre ++ code ++ post ∧ isIndexCode code = true ∧
        isWordAt pre.getLast? = false ∧ isWordAt post.head? = false := by
    intro h
    cases hm : INDEX_REGEX.exec line with
    | none => simp [INDEX_REGEX.test, hm] at h
    | some code =>
      obtain ⟨pre, post, hp⟩ := hexec code hm
      exact ⟨pre, code, post, hp⟩
  refine ⟨⟨htest, ?_⟩, hexec, ?_⟩
  · rintro ⟨pre, code, post, h1, h2, h3, h4⟩
    rw [h1]
    exact execFrom_isSome none pre code post h2 (by simpa using h3) h4
  · intro h
    obtain ⟨pre, code, post, h1, h2, _, _⟩ := htest h
    rw [h1]
    exact containsIndexShape_of pre code post h2

/-- C14 as written fails: the line `1234.567.89` contains the substring
`234.567.89`, three digits, `.`, three digits, `.`, two digits, but the digit
`1` in front of it leaves no word boundary, and `INDEX_REGEX` does not match
the line. -/
theorem C14_counterexample :
    utf16 "1234.567.89" = utf16 "1" ++ utf16 "234.567.89" ++ [] ∧
    isIndexCode (utf16 "234.567.89") = true ∧
    containsIndexShape (utf16 "1234.567.89") = true ∧
    INDEX_REGEX.test (utf16 "1234.567.89") = false ∧
    (parseInput toLowerCaseBasic (utf16 "1234.567.89")).items = [] := by
  decide

/-! ## What the total counts -/

theorem indexCodes_length (toLowerCase : JSString → JSString) (lines : List JSString) :
    (indexCodes toLowerCase lines).length =
      (lines.filter (fun l => !isHeaderLine toLowerCase l && INDEX_REGEX.test l)).length := by
  induction lines with
  | nil => rfl
  | cons line rest ih =>
    unfold indexCodes at ih ⊢
    by_cases hh : isHeaderLine toLowerCase line = true
    · simp [List.filterMap_cons, List.filter_cons, hh, ih]
    · cases hm : INDEX_REGEX.exec line with
      | none => simp [List.filterMap_cons, List.filter_cons, hh, hm, INDEX_REGEX.test, ih]
      | some k => simp [List.filterMap_cons, List.filter_cons, hh, hm, INDEX_REGEX.test, ih]

/-- C13 (as the code has it): the sum of `count` over the returned records is
the number of normalized lines that are not header lines and match
`INDEX_REGEX`; such a line counts once, for its leftmost match. -/
theorem C13_sum_counts_lines (toLowerCase : JSString → JSString) (text : JSString) :
    ((parseInput toLowerCase text).items.map Item.count).sum =
      ((normalizedLines text).filter
        (fun l => !isHeaderLine toLowerCase l && INDEX_REGEX.test l)).length ∧
    (parseInput toLowerCase text).totalFound =
      ((normalizedLines text).filter
        (fun l => !isHeaderLine toLowerCase l && INDEX_REGEX.test l)).length := by
  have h := mergeInv_scan toLowerCase (normalizedLines text)
  rw [← indexCodes_length, ← occurrences_map_fst, List.length_map]
  refine ⟨h.sum_count, ?_⟩
  simp only [parseInput]
  rw [h.found_eq, List.length_map]

/-- C13 as written fails: the line `111.222.33 444.555.66` holds two matches of
the pattern and is counted once, for its first match; the header line
`Kod 111.222.33` holds one match and is not counted at all. -/
theorem C13_counterexample :
    INDEX_REGEX.countMatches (utf16 "111.222.33 444.555.66") = 2 ∧
    ((parseInput toLowerCaseBasic (utf16 "111.222.33 444.555.66")).items.map Item.count).sum
      = 1 ∧
    INDEX_REGEX.countMatches (utf16 "Kod 111.222.33") = 1 ∧
    ((parseInput toLowerCaseBasic (utf16 "Kod 111.222.33")).items.map Item.count).sum = 0 := by
  decide

/-! ## Removing a record -/

theorem filter_length_of_nodup (l : List Item) (c : JSString)
    (hnd : (l.map Item.index).Nodup) (hc : c ∈ l.map Item.index) :
    (l.filter (fun item => item.index != c)).length + 1 = l.length := by
  induction l with
  | nil => simp at hc
  | cons a t ih =>
    simp only [List.map_cons, List.nodup_cons] at hnd
    by_cases ha : a.index = c
    · have hall : ∀ x ∈ t, (x.index != c) = true := by
        intro x hx
        have : x.index ≠ c := by
          intro hxc
          exact hnd.1 (by rw [ha, ← hxc]; exact List.mem_map_of_mem _ hx)
        simpa using this
      have hf : t.filter (fun item => item.index != c) = t := List.filter_eq_self.mpr hall
      simp [List.filter_cons, ha, hf]
    · have hct : c ∈ t.map Item.index := by
        simp only [List.map_cons, List.mem_cons] at hc
        rcases hc with hc | hc
        · exact absurd hc.symm ha
        · exact hc
      have := ih hnd.2 hct
      simp [List.filter_cons, ha, this]

/-- C15: removing by index code `c` from the records of a parse gives a list
with no record of index `c`; every other record is still there, unchanged and
in the same order; and when `c` is the index of a record, exactly one record
is gone. -/
theorem C15_remove_frame (toLowerCase : JSString → JSString) (text : JSString)
    (c : JSString) :
    (∀ x ∈ handleRemove (parseInput toLowerCase text).items c, x.index ≠ c) ∧
    (∀ x ∈ (parseInput toLowerCase text).items, x.index ≠ c →
      x ∈ handleRemove (parseInput toLowerCase text).items c) ∧
    List.Sublist (handleRemove (parseInput toLowerCase text).items c)
      (parseInput toLowerCase text).items ∧
    (c ∈ (parseInput toLowerCase text).items.map Item.index →
      (handleRemove (parseInput toLowerCase text).items c).length + 1 =
        (parseInput toLowerCase text).items.length) := by
  refine ⟨?_, ?_, ?_, ?_⟩
  · intro x hx
    have := (List.mem_filter.mp hx).2
    simpa using this
  · intro x hx hne
    exact List.mem_filter.mpr ⟨hx, by simpa using hne⟩
  · exact List.filter_sublist _
  · intro hc
    exact filter_length_of_nodup _ c (mergeInv_scan toLowerCase (normalizedLines text)).nodup hc

/-! ## The loops with explicit indices -/

theorem lookAheadLoop_eq (toLowerCase : JSString → JSString) (lines : List JSString)
    (fuel : Nat) :
    ∀ (j : Nat) (c : Capture), lines.length - j < fuel →
      lookAheadLoop toLowerCase lines fuel j c =
        .ok (lookAhead toLowerCase (lines.drop j) c) := by
  induction fuel with
  | zero =>
    intro j c h
    omega
  | succ fuel ih =>
    intro j c h
    rw [lookAheadLoop]
    by_cases hj : j < lines.length
    · have hd : lines.drop j = lines[j] :: lines.drop (j + 1) := List.drop_eq_getElem_cons hj
      have hg : lines[j]? = some lines[j] := List.getElem?_eq_getElem hj
      rw [if_pos hj, hg, hd, lookAhead_cons]
      simp only
      split_ifs with ht hdesc hfull
      · rfl
      · exact ih (j + 1) _ (by omega)
      · rfl
      · exact ih (j + 1) _ (by omega)
    · rw [if_neg hj, List.drop_eq_nil_of_le (by omega)]
      rfl

theorem mergeStepChecked_eq (st : ScanState) (index : JSString) (c : Capture) :
    mergeStepChecked st index c = .ok (mergeStep st index c) := by
  unfold mergeStepChecked mergeStep
  by_cases hk : mapHas st.indexMap index = true
  · rw [if_pos hk, if_pos hk]
    cases hg : mapGet st.indexMap index with
    | some e => rfl
    | none =>
      exfalso
      unfold mapGet at hg
      rw [List.find?_eq_none] at hg
      unfold mapHas at hk
      rw [List.any_eq_true] at hk
      obtain ⟨x, hx, hxi⟩ := hk
      exact hg x hx hxi
  · rw [if_neg hk, if_neg hk]

theorem scanLoop_eq (toLowerCase : JSString → JSString) (lines : List JSString)
    (fuel : Nat) :
    ∀ (i : Nat) (st : ScanState), lines.length - i < fuel →
      scanLoop toLowerCase lines fuel i st = .ok (scan toLowerCase (lines.drop i) st) := by
  induction fuel with
  | zero =>
    intro i st h
    omega
  | succ fuel ih =>
    intro i st h
    rw [scanLoop]
    by_cases hi : i < lines.length
    · have hd : lines.drop i = lines[i] :: lines.drop (i + 1) := List.drop_eq_getElem_cons hi
      have hg : lines[i]? = some lines[i] := List.getElem?_eq_getElem hi
      rw [if_pos hi, hg, hd, scan]
      simp only
      by_cases hh : isHeaderLine toLowerCase lines[i] = true
      · rw [if_pos hh, if_pos hh]
        exact ih (i + 1) st (by omega)
      · rw [if_neg hh, if_neg hh]
        cases hm : INDEX_REGEX.exec lines[i] with
        | none => exact ih (i + 1) st (by omega)
        | some index =>
          simp only
          rw [lookAheadLoop_eq toLowerCase lines (lines.length - i) (i + 1) Capture.empty
            (by omega)]
          simp only [mergeStepChecked_eq]
          exact ih (i + 1) _ (by omega)
    · rw [if_neg hi, List.drop_eq_nil_of_le (by omega)]
      rfl

/-- C19: `parseInput` is total. Run with indexed loops, the outer loop needs at
most `lines.length + 1` evaluations of its test and each look-ahead started at
`i` at most `lines.length - i`; no access `lines[i]`, `lines[j]` or
`indexMap.get(index)` fails; and the run returns the result of `parseInput`,
for every input text. -/
theorem C19_total (toLowerCase : JSString → JSString) (text : JSString) :
    parseInputChecked toLowerCase text = .ok (parseInput toLowerCase text) := by
  unfold parseInputChecked
  simp only
  rw [scanLoop_eq toLowerCase (normalizedLines text) ((normalizedLines text).length + 1) 0
    ⟨[], []⟩ (by omega)]
  rfl

/-! ## Two codes back to back -/

theorem isIndexCode_chars (m : JSString) (h : isIndexCode m = true) :
    ∀ c ∈ m, isDigit c = true ∨ c = 46 := by
  unfold isIndexCode at h
  split at h
  · simp only [Bool.and_eq_true, beq_iff_eq] at h
    obtain ⟨⟨⟨⟨⟨⟨⟨⟨⟨h1, h2⟩, h3⟩, hp1⟩, h4⟩, h5⟩, h6⟩, hp2⟩, h7⟩, h8⟩ := h
    intro c hc
    simp only [List.mem_cons, List.mem_singleton, List.not_mem_nil, or_false] at hc
    rcases hc with rfl | rfl | rfl | rfl | rfl | rfl | rfl | rfl | rfl | rfl
    · exact Or.inl h1
    · exact Or.inl h2
    · exact Or.inl h3
    · exact Or.inr hp1
    · exact Or.inl h4
    · exact Or.inl h5
    · exact Or.inl h6
    · exact Or.inr hp2
    · exact Or.inl h7
    · exact Or.inl h8
  · simp at h

theorem isIndexCode_range (m : JSString) (h : isIndexCode m = true) :
    ∀ c ∈ m, 46 ≤ c ∧ c ≤ 57 := by
  intro c hc
  rcases isIndexCode_chars m h c hc with hd | hd
  · simp only [isDigit, Bool.and_eq_true, decide_eq_true_eq] at hd
    omega
  · omega

theorem isWhiteSpace_of_range (c : Nat) (h : 46 ≤ c ∧ c ≤ 57) : isWhiteSpace c = false := by
  have h1 : c ≠ 9 := by omega
  have h2 : c ≠ 10 := by omega
  have h3 : c ≠ 11 := by omega
  have h4 : c ≠ 12 := by omega
  have h5 : c ≠ 13 := by omega
  have h6 : c ≠ 32 := by omega
  have h7 : c ≠ 160 := by omega
  have h8 : c ≠ 5760 := by omega
  have h9 : ¬ 8192 ≤ c := by omega
  have h10 : c ≠ 8232 := by omega
  have h11 : c ≠ 8233 := by omega
  have h12 : c ≠ 8239 := by omega
  have h13 : c ≠ 8287 := by omega
  have h14 : c ≠ 12288 := by omega
  have h15 : c ≠ 65279 := by omega
  simp [isWhiteSpace, h1, h2, h3, h4, h5, h6, h7, h8, h9, h10, h11, h12, h13, h14, h15]

theorem splitLines_plain (b : JSString) (h : ∀ c ∈ b, c ≠ 10 ∧ c ≠ 13) :
    splitLines b = [b] := by
  induction b with
  | nil => simp [splitLines]
  | cons c rest ih =>
    have hc := h c (by simp)
    have hr := ih (fun x hx => h x (by simp [hx]))
    rw [splitLines_other c rest hc.1 (fun h13 => absurd h13 hc.2), hr]
    rfl

theorem splitLines_append_lf (a t : JSString) (h : ∀ c ∈ a, c ≠ 10 ∧ c ≠ 13) :
    splitLines (a ++ 10 :: t) = a :: splitLines t := by
  induction a with
  | nil => exact splitLines_lf t
  | cons c rest ih =>
    have hc := h c (by simp)
    have hr := ih (fun x hx => h x (by simp [hx]))
    rw [List.cons_append, splitLines_other c _ hc.1 (fun h13 => absurd h13 hc.2), hr]
    rfl

theorem collapseAux_plain (a : JSString) (h : ∀ c ∈ a, isWhiteSpace c = false) :
    collapseAux false a = a := by
  induction a with
  | nil => rfl
  | cons c rest ih =>
    have hc := h c (by simp)
    rw [collapseAux, hc, ih (fun x hx => h x (by simp [hx]))]
    simp

theorem dropWhile_plain (a : JSString) (h : ∀ c ∈ a, isWhiteSpace c = false) :
    a.dropWhile isWhiteSpace = a := by
  cases a with
  | nil => rfl
  | cons c rest => simp [List.dropWhile_cons, h c (by simp)]

theorem normalizeLine_plain (a : JSString) (h : ∀ c ∈ a, isWhiteSpace c = false) :
    normalizeLine a = a := by
  unfold normalizeLine collapseWhiteSpace trim trimStart trimEnd
  rw [collapseAux_plain a h, dropWhile_plain a.reverse (fun c hc => h c (List.mem_reverse.mp hc)),
    List.reverse_reverse, dropWhile_plain a h]

theorem includes_head (s w : JSString) (h : includes s w = true) :
    w = [] ∨ ∃ c, w.head? = some c ∧ c ∈ s := by
  induction s with
  | nil =>
    left
    simpa [includes] using h
  | cons a rest ih =>
    rw [includes, Bool.or_eq_true] at h
    rcases h with h | h
    · cases w with
      | nil => exact Or.inl rfl
      | cons x xs =>
        right
        simp only [List.isPrefixOf, Bool.and_eq_true, beq_iff_eq] at h
        exact ⟨x, rfl, by simp [h.1]⟩
    · rcases ih h with hw | ⟨c, hc1, hc2⟩
      · exact Or.inl hw
      · exact Or.inr ⟨c, hc1, by simp [hc2]⟩

theorem blacklist_heads : ∀ w ∈ HEADER_BLACKLIST, ∃ c, w.head? = some c ∧ 58 ≤ c := by
  decide

theorem isHeaderLine_of_range (toLowerCase : JSString → JSString) (a : JSString)
    (hl : toLowerCase a = a) (h : ∀ c ∈ a, 46 ≤ c ∧ c ≤ 57) :
    isHeaderLine toLowerCase a = false := by
  unfold isHeaderLine
  simp only [hl]
  rw [List.any_eq_false]
  intro w hw hinc
  obtain ⟨c, hc, hge⟩ := blacklist_heads w hw
  rcases includes_head a w hinc with hnil | ⟨c2, hc2, hmem⟩
  · rw [hnil] at hc
    simp at hc
  · rw [hc] at hc2
    simp only [Option.some.injEq] at hc2
    have := (h c2 hmem).2
    omega

theorem exec_of_isIndexCode (a : JSString) (h : isIndexCode a = true) :
    INDEX_REGEX.exec a = some a := by
  have hm := matchAt_of_shape none a [] h rfl rfl
  rw [List.append_nil] at hm
  cases ha : a with
  | nil => rw [ha] at h; simp [isIndexCode] at h
  | cons c rest =>
    rw [ha] at hm
    rw [INDEX_REGEX.exec, INDEX_REGEX.execFrom, hm]

theorem normalizedLines_two_codes (a b : JSString) (ha : isIndexCode a = true)
    (hb : isIndexCode b = true) : normalizedLines (a ++ [10] ++ b) = [a, b] := by
  have hra := isIndexCode_range a ha
  have hrb := isIndexCode_range b hb
  have hsa : ∀ c ∈ a, c ≠ 10 ∧ c ≠ 13 := fun c hc => by
    have := hra c hc
    omega
  have hsb : ∀ c ∈ b, c ≠ 10 ∧ c ≠ 13 := fun c hc => by
    have := hrb c hc
    omega
  have hna := normalizeLine_plain a (fun c hc => isWhiteSpace_of_range c (hra c hc))
  have hnb := normalizeLine_plain b (fun c hc => isWhiteSpace_of_range c (hrb c hc))
  have hla := isIndexCode_length a ha
  have hlb := isIndexCode_length b hb
  unfold normalizedLines
  rw [List.append_assoc, List.singleton_append, splitLines_append_lf a b hsa,
    splitLines_plain b hsb]
  simp [hna, hnb, hla, hlb]

theorem lookAhead_next_index (toLowerCase : JSString → JSString) (next : JSString)
    (rest : List JSString) (c : Capture) (h : INDEX_REGEX.test next = true) :
    lookAhead toLowerCase (next :: rest) c = c := by
  rw [lookAhead_cons, if_pos h]

/-- C18: for two distinct index codes `a` and `b` of the shape `DDD.DDD.DD`,
`parseInput` on `a`, a line break, `b` returns exactly the two records of `a`
and of `b`, each with empty description, null quantities and `count` 1, and a
total of 2; and an occurrence whose next line matches `INDEX_REGEX` captures
nothing. The lowercasing is only asked to leave the two codes as they are. -/
theorem C18_back_to_back (toLowerCase : JSString → JSString) (a b : JSString)
    (ha : isIndexCode a = true) (hb : isIndexCode b = true) (hab : a ≠ b)
    (hla : toLowerCase a = a) (hlb : toLowerCase b = b) :
    parseInput toLowerCase (a ++ [10] ++ b) =
      ⟨[⟨a, [], none, none, 1⟩, ⟨b, [], none, none, 1⟩], 2⟩ ∧
    ∀ (next : JSString) (rest : List JSString), INDEX_REGEX.test next = true →
      lookAhead toLowerCase (next :: rest) Capture.empty = ⟨[], none, none⟩ := by
  refine ⟨?_, fun next rest h => lookAhead_next_index toLowerCase next rest _ h⟩
  have hha := isHeaderLine_of_range toLowerCase a hla (isIndexCode_range a ha)
  have hhb := isHeaderLine_of_range toLowerCase b hlb (isIndexCode_range b hb)
  have hea := exec_of_isIndexCode a ha
  have heb := exec_of_isIndexCode b hb
  have htb : INDEX_REGEX.test b = true := by rw [INDEX_REGEX.test, heb]; rfl
  have hnab : (a == b) = false := by simpa using hab
  unfold parseInput
  rw [normalizedLines_two_codes a b ha hb]
  simp only [scan, hha, hhb, hea, heb, lookAhead_next_index toLowerCase b [] _ htb, lookAhead]
  simp [mergeStep, mapHas, Capture.empty, hnab, htb]

set_option maxRecDepth 100000 in
theorem C18_back_to_back_witness :
    parseInput toLowerCaseBasic (utf16 "111.222.33" ++ [10] ++ utf16 "444.555.66") =
      ⟨[⟨utf16 "111.222.33", [], none, none, 1⟩, ⟨utf16 "444.555.66", [], none, none, 1⟩], 2⟩ ∧
    ∀ (next : JSString) (rest : List JSString), INDEX_REGEX.test next = true →
      lookAhead toLowerCaseBasic (next :: rest) Capture.empty = ⟨[], none, none⟩ :=
  C18_back_to_back toLowerCaseBasic (utf16 "111.222.33") (utf16 "444.555.66") (by decide)
    (by decide) (by decide) (by decide) (by decide)

/-! ## The sorted view -/

theorem compareCodeUnits_swap (a b : JSString) :
    compareCodeUnits b a = - compareCodeUnits a b := by
  induction a generalizing b with
  | nil => cases b <;> simp [compareCodeUnits]
  | cons x xs ih =>
    cases b with
    | nil => simp [compareCodeUnits]
    | cons y ys =>
      simp only [compareCodeUnits]
      by_cases h1 : x < y
      · have h2 : ¬ y < x := by omega
        simp [h1, h2]
      · by_cases h2 : y < x
        · simp [h1, h2]
        · simp [h1, h2, ih ys]

theorem compareCodeUnits_total (a b : JSString) :
    compareCodeUnits a b ≤ 0 ∨ compareCodeUnits b a ≤ 0 := by
  rw [compareCodeUnits_swap a b]
  omega

theorem compareCodeUnits_trans (a b c : JSString) (h1 : compareCodeUnits a b ≤ 0)
    (h2 : compareCodeUnits b c ≤ 0) : compareCodeUnits a c ≤ 0 := by
  induction a generalizing b c with
  | nil => cases c <;> simp [compareCodeUnits]
  | cons x xs ih =>
    cases b with
    | nil => simp [compareCodeUnits] at h1
    | cons y ys =>
      cases c with
      | nil => simp [compareCodeUnits] at h2
      | cons z zs =>
        simp only [compareCodeUnits] at h1 h2 ⊢
        by_cases hxy : x < y
        · by_cases hyz : y < z
          · have : x < z := by omega
            simp [this]
          · by_cases hzy : z < y
            · simp [hyz, hzy] at h2
            · have : x < z := by omega
              simp [this]
        · by_cases hyx : y < x
          · simp [hxy, hyx] at h1
          · simp only [hxy, hyx, if_false] at h1
            have hxy2 : x = y := by omega
            subst hxy2
            by_cases hxz : x < z
            · simp [hxz]
            · by_cases hzx : z < x
              · simp [hxz, hzx] at h2
              · simp only [hxz, hzx, if_false] at h2 ⊢
                exact ih ys zs h1 h2

theorem orderedInsert_congr (r s : Item → Item → Prop) [DecidableRel r] [DecidableRel s]
    (a : Item) (l : List Item) (h : ∀ b ∈ l, (r a b ↔ s a b)) :
    l.orderedInsert r a = l.orderedInsert s a := by
  induction l with
  | nil => rfl
  | cons b t ih =>
    have hb := h b (by simp)
    have ht := ih (fun x hx => h x (by simp [hx]))
    simp only [List.orderedInsert]
    by_cases hr : r a b
    · rw [if_pos hr, if_pos (hb.mp hr)]
    · rw [if_neg hr, if_neg (fun hs => hr (hb.mpr hs)), ht]

theorem insertionSort_congr (r s : Item → Item → Prop) [DecidableRel r] [DecidableRel s]
    (l : List Item) (h : ∀ a ∈ l, ∀ b ∈ l, (r a b ↔ s a b)) :
    l.insertionSort r = l.insertionSort s := by
  induction l with
  | nil => rfl
  | cons a t ih =>
    have ht := ih (fun x hx y hy => h x (by simp [hx]) y (by simp [hy]))
    simp only [List.insertionSort]
    rw [ht]
    apply orderedInsert_congr
    intro b hb
    have hbt : b ∈ t := (List.mem_insertionSort s).mp hb
    exact h a (by simp) b (by simp [hbt])

theorem indexCodes_shape (toLowerCase : JSString → JSString) (lines : List JSString) :
    ∀ k ∈ indexCodes toLowerCase lines, isIndexCode k = true := by
  intro k hk
  simp only [indexCodes, List.mem_filterMap] at hk
  obtain ⟨line, _, hline⟩ := hk
  split_ifs at hline
  obtain ⟨pre, post, _, h2, _, _⟩ := execFrom_some none line k hline
  exact h2

theorem items_shape (toLowerCase : JSString → JSString) (text : JSString) :
    ∀ x ∈ (parseInput toLowerCase text).items, isIndexCode x.index = true := by
  intro x hx
  have h := mergeInv_scan toLowerCase (normalizedLines text)
  have hk := (h.keys x.index).mp (List.mem_map_of_mem _ hx)
  rw [occurrences_map_fst] at hk
  exact indexCodes_shape toLowerCase _ _ hk

/-- C16: with the sort flag on, the displayed list of the records of a parse is
a permutation of them in non-decreasing order of index code under the
comparison of UTF-16 code units from the left; with the flag off it is the
record list itself. The host collation `localeCompare` is only asked to order
strings of the shape `DDD.DDD.DD` as their code units do. -/
theorem C16_sorted_view (localeCompare : JSString → JSString → Int)
    (toLowerCase : JSString → JSString) (text : JSString)
    (hcmp : ∀ a b, isIndexCode a = true → isIndexCode b = true →
      (localeCompare a b ≤ 0 ↔ compareCodeUnits a b ≤ 0)) :
    List.Perm (sortedItems localeCompare (parseInput toLowerCase text).items true)
      (parseInput toLowerCase text).items ∧
    List.Sorted (fun x y => compareCodeUnits x.index y.index ≤ 0)
      (sortedItems localeCompare (parseInput toLowerCase text).items true) ∧
    sortedItems localeCompare (parseInput toLowerCase text).items false =
      (parseInput toLowerCase text).items := by
  have hshape := items_shape toLowerCase text
  have hsort : sortedItems localeCompare (parseInput toLowerCase text).items true =
      (parseInput toLowerCase text).items.insertionSort
        (fun x y => compareCodeUnits x.index y.index ≤ 0) := by
    simp only [sortedItems, if_true]
    exact insertionSort_congr _ _ _
      (fun a ha b hb => hcmp a.index b.index (hshape a ha) (hshape b hb))
  haveI : IsTotal Item (fun x y => compareCodeUnits x.index y.index ≤ 0) :=
    ⟨fun x y => compareCodeUnits_total x.index y.index⟩
  haveI : IsTrans Item (fun x y => compareCodeUnits x.index y.index ≤ 0) :=
    ⟨fun x y z h1 h2 => compareCodeUnits_trans x.index y.index z.index h1 h2⟩
  refine ⟨?_, ?_, ?_⟩
  · rw [hsort]
    exact List.perm_insertionSort _ _
  · rw [hsort]
    exact List.sorted_insertionSort _ _
  · simp [sortedItems]

set_option maxRecDepth 100000 in
theorem C16_sorted_view_witness :
    (List.Perm
        (sortedItems compareCodeUnits
          (parseInput toLowerCaseBasic (utf16 "444.555.66\n111.222.33\n222.000.11")).items true)
        (parseInput toLowerCaseBasic (utf16 "444.555.66\n111.222.33\n222.000.11")).items ∧
      List.Sorted (fun x y => compareCodeUnits x.index y.index ≤ 0)
        (sortedItems compareCodeUnits
          (parseInput toLowerCaseBasic (utf16 "444.555.66\n111.222.33\n222.000.11")).items true) ∧
      sortedItems compareCodeUnits
          (parseInput toLowerCaseBasic (utf16 "444.555.66\n111.222.33\n222.000.11")).items false =
        (parseInput toLowerCaseBasic (utf16 "444.555.66\n111.222.33\n222.000.11")).items) ∧
    (sortedItems compareCodeUnits
        (parseInput toLowerCaseBasic (utf16 "444.555.66\n111.222.33\n222.000.11")).items
        true).map Item.index =
      [utf16 "111.222.33", utf16 "222.000.11", utf16 "444.555.66"] :=
  ⟨C16_sorted_view compareCodeUnits toLowerCaseBasic
      (utf16 "444.555.66\n111.222.33\n222.000.11") (fun _ _ _ _ => Iff.rfl),
   by decide⟩

end AppJsx
